import Mathlib

/-! BasicCollision: a bouncing ball against walls and one static rectangle.

A shallow embedding of `Source.cpp`, at two levels of arithmetic.

Exact level.  `float` is replaced by exact arithmetic in an arbitrary linearly
ordered field `α` (instantiated with `ℚ` for evaluation and with `ℝ` where
square roots are needed).  The literals of the source are taken at their
decimal value (`0.7f` is `7/10`).  An operation which has no real value
(`glm::normalize` of the zero vector) returns `none`.  The definitions
`CheckCollision`, `integrate`, `wallCollisionX`, `wallCollisionY`,
`objectCollision`, `relax`, `physicsStep`, `processInput` and `frame` are at
this level.

Binary32 level.  Every `float` operation is the exact operation followed by
rounding to the nearest `float` (`f32`), ties to even; `double` operations
round with `f64`.  Literals are rounded (`0.7f` is `f32 (7/10)`, `M_PI` is
`f64 3.14159265358979323846`).  The definitions `CheckCollisionF32`,
`integrateF32`, `wallCollisionXF32`, `wallCollisionYF32`, `objectCollisionF32`,
`relaxSquashF32`, `physicsStepF32`, `processInputF32`, `frameF32` and
`GenerateCircleVertices` are at this level.  Overflow, infinities and NaN are
not modelled.

An `unsigned int` is a natural number below `2^32`, with wrap-around on
increment.  The library functions `sqrt`, `cos` and `sin` of `<cmath>` are
parameters of the definitions that use them.
-/

namespace BasicCollision

/-! ## Data model -/

/-- Counterpart of `glm::vec2`. -/
@[ext]
structure Vec2 (α : Type) where
  x : α
  y : α
deriving DecidableEq, Repr

/-- Counterpart of `glm::vec3`. -/
@[ext]
structure Vec3 (α : Type) where
  x : α
  y : α
  z : α
deriving DecidableEq, Repr

namespace Vec2

variable {α : Type}

/-- The constructor `glm::vec2(s)`: both components equal to `s`. -/
def splat (s : α) : Vec2 α := ⟨s, s⟩

instance [Add α] : Add (Vec2 α) := ⟨fun a b => ⟨a.x + b.x, a.y + b.y⟩⟩

instance [Sub α] : Sub (Vec2 α) := ⟨fun a b => ⟨a.x - b.x, a.y - b.y⟩⟩

instance [Neg α] : Neg (Vec2 α) := ⟨fun a => ⟨-a.x, -a.y⟩⟩

/-- Vector times scalar, `v * s` of glm. -/
instance [Mul α] : HMul (Vec2 α) α (Vec2 α) := ⟨fun a s => ⟨a.x * s, a.y * s⟩⟩

/-- The dot product `glm::dot`. -/
def dot [Add α] [Mul α] (a b : Vec2 α) : α := a.x * b.x + a.y * b.y

end Vec2

/-- The `struct Ball` of the source. -/
structure Ball (α : Type) where
  position : Vec2 α
  velocity : Vec2 α
  radius : α
  color : Vec3 α
  squashFactor : Vec2 α
  speed : α

/-- The `struct StaticObject` of the source: `position` is a corner, `size` is
width and height. -/
structure StaticObject (α : Type) where
  position : Vec2 α
  size : Vec2 α
  color : Vec3 α

/-- Screen width in pixels (`const unsigned int SCREEN_WIDTH = 800`). -/
def SCREEN_WIDTH : Nat := 800

/-- Screen height in pixels (`const unsigned int SCREEN_HEIGHT = 600`). -/
def SCREEN_HEIGHT : Nat := 600

section Definitions

variable {α : Type} [LinearOrderedField α]

/-! ## Geometry generation -/

/-- The constant `M_PI` at the decimal value written in the source. -/
def M_PI : α := 314159265358979323846 / 100000000000000000000

/-- The function `GenerateRectangleVertices()`. -/
def GenerateRectangleVertices : List α :=
  [0, 1, 0,
   1, 0, 0,
   0, 0, 0,
   0, 1, 0,
   1, 1, 0,
   1, 0, 0]

/-- The vertex layout `glVertexAttribPointer(0, 3, GL_FLOAT, ...)`: consecutive
triples of the flat buffer are the points. -/
def toPoints : List α → List (Vec3 α)
  | x :: y :: z :: rest => ⟨x, y, z⟩ :: toPoints rest
  | _ => []

/-- The `k`-th triangle drawn by `glDrawArrays(GL_TRIANGLES, ...)`: the points
`3k`, `3k+1`, `3k+2` of the buffer. -/
def triangleAt (vertices : List α) (k : Nat) : Vec3 α × Vec3 α × Vec3 α :=
  let pts := toPoints vertices
  (pts.getD (3 * k) ⟨0, 0, 0⟩, pts.getD (3 * k + 1) ⟨0, 0, 0⟩, pts.getD (3 * k + 2) ⟨0, 0, 0⟩)

/-! ## AABB collision detection -/

/-- The function `CheckCollision(ball, obj)`: bounding square of the ball against
the box of the object, all four comparisons inclusive. -/
def CheckCollision (ball : Ball α) (obj : StaticObject α) : Bool :=
  let ballMin := ball.position - Vec2.splat ball.radius
  let ballMax := ball.position + Vec2.splat ball.radius
  let objMin := obj.position
  let objMax := obj.position + obj.size
  decide (ballMax.x ≥ objMin.x ∧ ballMin.x ≤ objMax.x ∧
    ballMax.y ≥ objMin.y ∧ ballMin.y ≤ objMax.y)

/-! ## The frame loop of `main` -/

/-- The function `glm::inversesqrt(x) = 1 / sqrt(x)`; `none` when the result is
not a real number. -/
def inversesqrt (sqrt : α → α) (x : α) : Option α :=
  if sqrt x = 0 then none else some (1 / sqrt x)

/-- The function `glm::normalize(v) = v * inversesqrt(dot(v, v))`. -/
def normalize (sqrt : α → α) (v : Vec2 α) : Option (Vec2 α) :=
  (inversesqrt sqrt (Vec2.dot v v)).map fun k => v * k

/-- Input handling.  `mouse` is `none` when the left button is not pressed and
the cursor position `(mouseX, mouseY)` in window coordinates when it is. -/
def processInput (sqrt : α → α) (mouse : Option (α × α)) (ball : Ball α) : Option (Ball α) :=
  match mouse with
  | none => some ball
  | some (mouseX, mouseY) =>
    let mouseY := (SCREEN_HEIGHT : α) - mouseY
    match normalize sqrt ((⟨mouseX, mouseY⟩ : Vec2 α) - ball.position) with
    | none => none
    | some direction => some { ball with velocity := direction * ball.speed }

/-- Position integration: `ball.position += ball.velocity * deltaTime`. -/
def integrate (deltaTime : α) (ball : Ball α) : Ball α :=
  { ball with position := ball.position + ball.velocity * deltaTime }

/-- The test of the first wall `if`: left or right wall crossed. -/
def hitsWallX (ball : Ball α) : Prop :=
  ball.position.x - ball.radius < 0 ∨ ball.position.x + ball.radius > (SCREEN_WIDTH : α)

/-- The test of the second wall `if`: bottom or top wall crossed. -/
def hitsWallY (ball : Ball α) : Prop :=
  ball.position.y - ball.radius < 0 ∨ ball.position.y + ball.radius > (SCREEN_HEIGHT : α)

instance (ball : Ball α) : Decidable (hitsWallX ball) := by
  unfold hitsWallX; infer_instance

instance (ball : Ball α) : Decidable (hitsWallY ball) := by
  unfold hitsWallY; infer_instance

/-- Collision with the left and right walls. -/
def wallCollisionX (ball : Ball α) : Ball α :=
  if hitsWallX ball then
    { ball with
      velocity := ⟨-ball.velocity.x, ball.velocity.y⟩
      squashFactor := ⟨7 / 10, 13 / 10⟩ }
  else ball

/-- Collision with the bottom and top walls. -/
def wallCollisionY (ball : Ball α) : Ball α :=
  if hitsWallY ball then
    { ball with
      velocity := ⟨ball.velocity.x, -ball.velocity.y⟩
      squashFactor := ⟨13 / 10, 7 / 10⟩ }
  else ball

/-- Collision with the static object. -/
def objectCollision (obj : StaticObject α) (ball : Ball α) : Ball α :=
  if CheckCollision ball obj then
    { ball with
      velocity := -ball.velocity
      squashFactor := ⟨13 / 10, 7 / 10⟩ }
  else ball

/-- The state of the ball after the three collision tests of a frame, before
the squash factor is relaxed. -/
def collide (obj : StaticObject α) (ball : Ball α) : Ball α :=
  objectCollision obj (wallCollisionY (wallCollisionX ball))

/-- The relaxation `squashFactor += (vec2(1, 1) - squashFactor) * 5.0f * deltaTime`
on the squash factor alone, in exact arithmetic.  The same statement with every
`float` operation rounded is `relaxSquashF32`. -/
def relaxSquash (deltaTime : α) (squashFactor : Vec2 α) : Vec2 α :=
  squashFactor + ((⟨1, 1⟩ : Vec2 α) - squashFactor) * (5 : α) * deltaTime

/-- Smooth restoration of the squash factor. -/
def relax (deltaTime : α) (ball : Ball α) : Ball α :=
  { ball with squashFactor := relaxSquash deltaTime ball.squashFactor }

/-- The update of one frame after input handling: integrate, walls, object,
relaxation. -/
def physicsStep (deltaTime : α) (obj : StaticObject α) (ball : Ball α) : Ball α :=
  relax deltaTime (collide obj (integrate deltaTime ball))

/-- One iteration of the frame loop on the ball: input handling, then the
physics update. -/
def frame (sqrt : α → α) (mouse : Option (α × α)) (deltaTime : α) (obj : StaticObject α)
    (ball : Ball α) : Option (Ball α) :=
  (processInput sqrt mouse ball).map (physicsStep deltaTime obj)

/-- The ball as set up in `main`. -/
def initialBall : Ball α :=
  { position := ⟨(SCREEN_WIDTH : α) / 2, (SCREEN_HEIGHT : α) / 2⟩
    velocity := ⟨0, 0⟩
    radius := 50
    color := ⟨1, 1 / 2, 1 / 5⟩
    squashFactor := ⟨1, 1⟩
    speed := 300 }

/-- The static object as set up in `main`. -/
def staticObj : StaticObject α :=
  { position := ⟨300, 300⟩
    size := ⟨200, 100⟩
    color := ⟨0, 1, 0⟩ }

/-- The ball of `main` moved to `(px, py)` with radius `r`, velocity `(vx, vy)`
and squash factor `(sx, sy)`. -/
def ballAt (px py r vx vy sx sy : α) : Ball α :=
  { initialBall with
    position := ⟨px, py⟩
    radius := r
    velocity := ⟨vx, vy⟩
    squashFactor := ⟨sx, sy⟩ }

/-- The object of `main` moved to `(qx, qy)` with size `(w, h)`. -/
def objAt (qx qy w h : α) : StaticObject α :=
  { staticObj with
    position := ⟨qx, qy⟩
    size := ⟨w, h⟩ }

/-! ## Vocabulary of the specification -/

/-- Two closed intervals `[a, b]` and `[c, d]` intersect: they share a point. -/
def IntervalsIntersect (a b c d : α) : Prop :=
  ∃ t : α, (a ≤ t ∧ t ≤ b) ∧ (c ≤ t ∧ t ≤ d)

/-- The bounding square `[p - r, p + r]` of the ball and the box `[q, q + s]` of
the object intersect on both axes. -/
def BoxesIntersect (ball : Ball α) (obj : StaticObject α) : Prop :=
  IntervalsIntersect (ball.position.x - ball.radius) (ball.position.x + ball.radius)
      obj.position.x (obj.position.x + obj.size.x) ∧
    IntervalsIntersect (ball.position.y - ball.radius) (ball.position.y + ball.radius)
      obj.position.y (obj.position.y + obj.size.y)

/-- The point `(x, y)` lies within distance `radius` of the position of the
ball (the distance compared on squares). -/
def InDisc (ball : Ball α) (x y : α) : Prop :=
  0 ≤ ball.radius ∧
    (x - ball.position.x) ^ 2 + (y - ball.position.y) ^ 2 ≤ ball.radius ^ 2

/-- The point `(x, y)` lies in the closed rectangle `[q, q + s]` of the object. -/
def InRect (obj : StaticObject α) (x y : α) : Prop :=
  (obj.position.x ≤ x ∧ x ≤ obj.position.x + obj.size.x) ∧
    (obj.position.y ≤ y ∧ y ≤ obj.position.y + obj.size.y)

/-- The point `(x, y)` lies in the closed triangle `t`: it is a convex
combination of the three corners. -/
def InTriangle (t : Vec3 α × Vec3 α × Vec3 α) (x y : α) : Prop :=
  ∃ u v w : α, 0 ≤ u ∧ 0 ≤ v ∧ 0 ≤ w ∧ u + v + w = 1 ∧
    x = u * t.1.x + v * t.2.1.x + w * t.2.2.x ∧
    y = u * t.1.y + v * t.2.1.y + w * t.2.2.y

/-- The point `(x, y)` lies in the interior of the triangle `t`: a convex
combination of the corners with all three weights positive. -/
def InTriangleInterior (t : Vec3 α × Vec3 α × Vec3 α) (x y : α) : Prop :=
  ∃ u v w : α, 0 < u ∧ 0 < v ∧ 0 < w ∧ u + v + w = 1 ∧
    x = u * t.1.x + v * t.2.1.x + w * t.2.2.x ∧
    y = u * t.1.y + v * t.2.1.y + w * t.2.2.y

/-- The point `(x, y)` lies on the closed segment from `a` to `b`. -/
def OnSegment (a b : Vec3 α) (x y : α) : Prop :=
  ∃ t : α, 0 ≤ t ∧ t ≤ 1 ∧ x = (1 - t) * a.x + t * b.x ∧ y = (1 - t) * a.y + t * b.y

/-- The point `(x, y)` lies in the unit square `[0, 1] x [0, 1]`. -/
def InUnitSquare (x y : α) : Prop :=
  (0 ≤ x ∧ x ≤ 1) ∧ (0 ≤ y ∧ y ≤ 1)

end Definitions

/-! ## Binary floating-point rounding

The statements of the source are `float` (IEEE binary32) operations, a few of
them `double` (binary64) operations.  `f32` and `f64` round an exact result to
the nearest number of the format, ties to even, subnormal numbers included.
Overflow to infinity is not modelled: every value met below is far smaller than
the largest finite number. -/

section FloatDefinitions

variable {α : Type} [LinearOrderedField α] [FloorRing α]

/-- Rounding of `t` to the nearest integer, ties to the even one. -/
def roundNearestEven (t : α) : ℤ :=
  if t - ⌊t⌋ < 1 / 2 then ⌊t⌋
  else if 1 / 2 < t - ⌊t⌋ then ⌊t⌋ + 1
  else if ⌊t⌋ % 2 = 0 then ⌊t⌋ else ⌊t⌋ + 1

/-- The exponent of the binade of `x`, not below `emin` (subnormal range). -/
def binadeExponent (emin : ℤ) (x : α) : ℤ := max (Int.log 2 |x|) emin

/-- The spacing of the binary numbers of precision `p` around `x`. -/
def ulpAt (p : ℕ) (emin : ℤ) (x : α) : α := (2 : α) ^ (binadeExponent emin x - ((p : ℤ) - 1))

/-- Rounding to the nearest binary floating-point number of precision `p` and
least normal exponent `emin`, ties to even. -/
def roundBinary (p : ℕ) (emin : ℤ) (x : α) : α :=
  (roundNearestEven (x / ulpAt p emin x) : α) * ulpAt p emin x

/-- Rounding to `float` (IEEE binary32). -/
def f32 (x : α) : α := roundBinary 24 (-126) x

/-- Rounding to `double` (IEEE binary64). -/
def f64 (x : α) : α := roundBinary 53 (-1022) x

/-- The number `x` is a binary floating-point number of precision `p` and least
normal exponent `emin`. -/
def IsBinary (p : ℕ) (emin : ℤ) (x : α) : Prop :=
  ∃ m e : ℤ, |m| < 2 ^ p ∧ emin - ((p : ℤ) - 1) ≤ e ∧ x = (m : α) * (2 : α) ^ e

/-- The number `x` is a `float`. -/
def IsF32 (x : α) : Prop := IsBinary 24 (-126) x

/-- Rounding of both components of a `glm::vec2` to `float`. -/
def roundVec2 (v : Vec2 α) : Vec2 α := ⟨f32 v.x, f32 v.y⟩

/-! ## Circle vertices -/

/-- The `for (unsigned int i = 0; i <= segments; ++i)` loop of
`GenerateCircleVertices`, one iteration per unit of fuel.  The counter `i` is a
32-bit unsigned integer; `none` means the fuel ran out before the loop ended.
In `i * angleIncrement` the counter is converted to `float` and the product is
a `float`; `radius * cos(angle)` is rounded to `double` and narrowed to `float`
by `push_back` (for a library function that returns `float` the first rounding
changes nothing).  The parameters `cos`, `sin` are the library functions. -/
def circleLoop (cos sin : α → α) (radius angleIncrement : α) (segments : Nat) :
    Nat → Nat → List α → Option (List α)
  | 0, _, _ => none
  | fuel + 1, i, vertices =>
    if i ≤ segments then
      let angle := f32 (f32 (i : α) * angleIncrement)
      circleLoop cos sin radius angleIncrement segments fuel ((i + 1) % 2 ^ 32)
        (vertices ++ [f32 (f64 (radius * cos angle)), f32 (f64 (radius * sin angle)), 0])
    else
      some vertices

/-- The function `GenerateCircleVertices(radius, segments)`, run with the given
amount of fuel.  In `2.0f * M_PI / segments` the literal `M_PI` is a `double`,
product and quotient are `double` operations, and the result is narrowed to the
`float` `angleIncrement`.  For `segments = 0` the quotient has no real value
(the field convention `x / 0 = 0` applies here); the theorems below take
`segments ≥ 1`. -/
def GenerateCircleVertices (cos sin : α → α) (fuel : Nat) (radius : α) (segments : Nat) :
    Option (List α) :=
  let angleIncrement := f32 (f64 (f64 (2 * f64 M_PI) / (segments : α)))
  circleLoop cos sin radius angleIncrement segments fuel 0 []

/-- The three numbers that iteration `i` of the loop of `GenerateCircleVertices`
appends, for the angle increment `angleIncrement`. -/
def circleTriple (cos sin : α → α) (radius angleIncrement : α) (i : Nat) : List α :=
  [f32 (f64 (radius * cos (f32 (f32 (i : α) * angleIncrement)))),
    f32 (f64 (radius * sin (f32 (f32 (i : α) * angleIncrement)))), 0]

/-- The angle of point number `i` as the program computes it: `i` times the
`float` angle increment `2 * M_PI / segments`, rounded to `float`. -/
def circleAngle (segments i : Nat) : α :=
  f32 (f32 (i : α) * f32 (f64 (f64 (2 * f64 M_PI) / (segments : α))))

/-- The point number `i` of the circle of `segments` segments: the point of the
circle of the given radius at the angle `circleAngle segments i`, its
coordinates rounded to `float`, with `z = 0`. -/
def circlePoint (cos sin : α → α) (radius : α) (segments i : Nat) : Vec3 α :=
  ⟨f32 (f64 (radius * cos (circleAngle segments i))),
    f32 (f64 (radius * sin (circleAngle segments i))), 0⟩

/-! ## The per-frame update in binary32 -/

/-- The function `CheckCollision(ball, obj)` with the three `float` vector
operations rounded: `position - radius`, `position + radius` of the ball and
`position + size` of the object. -/
def CheckCollisionF32 (ball : Ball α) (obj : StaticObject α) : Bool :=
  let ballMin := roundVec2 (ball.position - Vec2.splat ball.radius)
  let ballMax := roundVec2 (ball.position + Vec2.splat ball.radius)
  let objMin := obj.position
  let objMax := roundVec2 (obj.position + obj.size)
  decide (ballMax.x ≥ objMin.x ∧ ballMin.x ≤ objMax.x ∧
    ballMax.y ≥ objMin.y ∧ ballMin.y ≤ objMax.y)

/-- Position integration `ball.position += ball.velocity * deltaTime`, product
and sum rounded. -/
def integrateF32 (deltaTime : α) (ball : Ball α) : Ball α :=
  { ball with position := roundVec2 (ball.position + roundVec2 (ball.velocity * deltaTime)) }

/-- The test of the first wall `if`, the difference and the sum rounded. -/
def hitsWallXF32 (ball : Ball α) : Prop :=
  f32 (ball.position.x - ball.radius) < 0 ∨
    f32 (ball.position.x + ball.radius) > (SCREEN_WIDTH : α)

/-- The test of the second wall `if`, the difference and the sum rounded. -/
def hitsWallYF32 (ball : Ball α) : Prop :=
  f32 (ball.position.y - ball.radius) < 0 ∨
    f32 (ball.position.y + ball.radius) > (SCREEN_HEIGHT : α)

instance (ball : Ball α) : Decidable (hitsWallXF32 ball) := by
  unfold hitsWallXF32; infer_instance

instance (ball : Ball α) : Decidable (hitsWallYF32 ball) := by
  unfold hitsWallYF32; infer_instance

/-- Collision with the left and right walls; `0.7f` and `1.3f` are the `float`s
nearest to `7/10` and `13/10`. -/
def wallCollisionXF32 (ball : Ball α) : Ball α :=
  if hitsWallXF32 ball then
    { ball with
      velocity := ⟨-ball.velocity.x, ball.velocity.y⟩
      squashFactor := ⟨f32 (7 / 10), f32 (13 / 10)⟩ }
  else ball

/-- Collision with the bottom and top walls. -/
def wallCollisionYF32 (ball : Ball α) : Ball α :=
  if hitsWallYF32 ball then
    { ball with
      velocity := ⟨ball.velocity.x, -ball.velocity.y⟩
      squashFactor := ⟨f32 (13 / 10), f32 (7 / 10)⟩ }
  else ball

/-- Collision with the static object. -/
def objectCollisionF32 (obj : StaticObject α) (ball : Ball α) : Ball α :=
  if CheckCollisionF32 ball obj then
    { ball with
      velocity := -ball.velocity
      squashFactor := ⟨f32 (13 / 10), f32 (7 / 10)⟩ }
  else ball

/-! ## The squash relaxation in binary32 -/

/-- The statement `squashFactor += (vec2(1, 1) - squashFactor) * 5.0f * deltaTime`
with every `float` operation rounded: the subtraction, the two
multiplications and the addition. -/
def relaxSquashF32 (deltaTime : α) (squashFactor : Vec2 α) : Vec2 α :=
  roundVec2 (squashFactor +
    roundVec2 (roundVec2 (roundVec2 ((⟨1, 1⟩ : Vec2 α) - squashFactor) * (5 : α)) * deltaTime))

/-- The update of one frame after input handling (lines 242 to 261 of the
source), every `float` operation rounded: integrate, walls, object,
relaxation. -/
def physicsStepF32 (deltaTime : α) (obj : StaticObject α) (ball : Ball α) : Ball α :=
  let moved := objectCollisionF32 obj (wallCollisionYF32 (wallCollisionXF32
    (integrateF32 deltaTime ball)))
  { moved with squashFactor := relaxSquashF32 deltaTime moved.squashFactor }

/-- The function `glm::inversesqrt(x) = 1.0f / sqrt(x)` in binary32; `sqrt` is
the library function on `float`, and `none` stands for a result that is not a
real number. -/
def inversesqrtF32 (sqrt : α → α) (x : α) : Option α :=
  if sqrt x = 0 then none else some (f32 (1 / sqrt x))

/-- The function `glm::dot` on `glm::vec2`: two products and one sum, each
rounded. -/
def dotF32 (a b : Vec2 α) : α := f32 (f32 (a.x * b.x) + f32 (a.y * b.y))

/-- The function `glm::normalize(v) = v * inversesqrt(dot(v, v))` in binary32. -/
def normalizeF32 (sqrt : α → α) (v : Vec2 α) : Option (Vec2 α) :=
  (inversesqrtF32 sqrt (dotF32 v v)).map fun k => roundVec2 (v * k)

/-- Input handling in binary32.  The cursor position is a pair of `double`s;
`SCREEN_HEIGHT - mouseY` is a `double` subtraction, `glm::vec2(mouseX, mouseY)`
narrows both to `float`, and the difference to the position, the normalization
and the product with the speed are `float` operations. -/
def processInputF32 (sqrt : α → α) (mouse : Option (α × α)) (ball : Ball α) :
    Option (Ball α) :=
  match mouse with
  | none => some ball
  | some (mouseX, mouseY) =>
    let mouseY := f64 ((SCREEN_HEIGHT : α) - mouseY)
    match normalizeF32 sqrt (roundVec2 (roundVec2 ⟨mouseX, mouseY⟩ - ball.position)) with
    | none => none
    | some direction => some { ball with velocity := roundVec2 (direction * ball.speed) }

/-- One iteration of the frame loop on the ball in binary32: input handling,
then the physics update. -/
def frameF32 (sqrt : α → α) (mouse : Option (α × α)) (deltaTime : α) (obj : StaticObject α)
    (ball : Ball α) : Option (Ball α) :=
  (processInputF32 sqrt mouse ball).map (physicsStepF32 deltaTime obj)

/-- The bounding square of the ball and the box of the object, with the bounds
as `CheckCollision` computes them in binary32, intersect on both axes. -/
def BoxesIntersectF32 (ball : Ball α) (obj : StaticObject α) : Prop :=
  IntervalsIntersect (f32 (ball.position.x - ball.radius)) (f32 (ball.position.x + ball.radius))
      obj.position.x (f32 (obj.position.x + obj.size.x)) ∧
    IntervalsIntersect (f32 (ball.position.y - ball.radius))
      (f32 (ball.position.y + ball.radius))
      obj.position.y (f32 (obj.position.y + obj.size.y))

/-- One component of `relaxSquashF32`. -/
def relaxComponentF32 (deltaTime s : α) : α :=
  f32 (s + f32 (f32 (f32 (1 - s) * 5) * deltaTime))

/-- The largest `float` below `1/5`. -/
def maxBelowFifth : α := 13421772 / 2 ^ 26

/-- The value `t'` follows `t` on the way from `s` to `1`: both lie between
`s` and `1`, on the side of `s`, and `t'` is not farther from `1` than `t`. -/
def StaysToward (s t t' : α) : Prop :=
  (1 ≤ s → 1 ≤ t' ∧ t' ≤ t ∧ t ≤ s) ∧ (s ≤ 1 → s ≤ t ∧ t ≤ t' ∧ t' ≤ 1)

end FloatDefinitions

/-! # Theorems -/

/-! ## Rounding -/

section PowersOfTwo

variable {α : Type} [LinearOrderedField α]

theorem zpow_nonneg_eq_intCast {k : ℤ} (hk : 0 ≤ k) :
    ∃ n : ℕ, (2 : α) ^ k = (((2 : ℤ) ^ n : ℤ) : α) := by
  obtain ⟨n, rfl⟩ := Int.eq_ofNat_of_zero_le hk
  exact ⟨n, by rw [zpow_natCast]; push_cast; rfl⟩

theorem abs_lt_zpow_of_isBinary {p : ℕ} {m e : ℤ} (hm : |m| < 2 ^ p) :
    |(m : α) * (2 : α) ^ e| < (2 : α) ^ (e + p) := by
  rw [abs_mul, abs_of_pos (zpow_pos (two_pos (α := α)) e), zpow_add₀ (two_ne_zero), mul_comm,
    zpow_natCast]
  apply mul_lt_mul_of_pos_left _ (zpow_pos two_pos e)
  have : ((|m| : ℤ) : α) < ((2 ^ p : ℤ) : α) := by exact_mod_cast hm
  simpa using this

/-- A binary floating-point number of magnitude at least `2 ^ k` lies on the
grid of spacing `2 ^ (k - (p - 1))`. -/
theorem isBinary_grid {p : ℕ} {emin : ℤ} {x : α} (h : IsBinary p emin x) (k : ℤ)
    (hk : (2 : α) ^ k ≤ |x|) : ∃ N : ℤ, x = (N : α) * (2 : α) ^ (k - ((p : ℤ) - 1)) := by
  obtain ⟨m, e, hm, -, rfl⟩ := h
  rcases le_or_lt (k - ((p : ℤ) - 1)) e with hle | hlt
  · obtain ⟨n, hn⟩ := zpow_nonneg_eq_intCast (α := α) (sub_nonneg.mpr hle)
    refine ⟨m * 2 ^ n, ?_⟩
    push_cast
    push_cast at hn
    rw [mul_assoc, ← hn, ← zpow_add₀ (two_ne_zero)]
    congr 2
    ring
  · exfalso
    have h1 := abs_lt_zpow_of_isBinary (α := α) (e := e) hm
    have h2 : (2 : α) ^ (e + p) ≤ (2 : α) ^ k := zpow_le_zpow_right₀ (by norm_num) (by omega)
    linarith

theorem isF32_neg {x : α} (h : IsF32 x) : IsF32 (-x) := by
  obtain ⟨m, e, hm, he, rfl⟩ := h
  exact ⟨-m, e, by rwa [abs_neg], he, by push_cast; ring⟩

/-- An integer multiple of a power of two, with less than 24 bits, is a
`float`. -/
theorem isF32_of_eq {x : α} (m e : ℤ) (hm : |m| < 2 ^ 24) (he : -149 ≤ e)
    (hx : x = (m : α) * (2 : α) ^ e) : IsF32 x :=
  ⟨m, e, hm, by norm_num; omega, hx⟩

theorem isF32_one : IsF32 (1 : α) := isF32_of_eq 1 0 (by norm_num) (by norm_num) (by simp)

/-- For a `float` `s` in `[1/2, 2]` the difference `1 - s` is computed without
error and is `0` or at least `2 ^ (-24)` in magnitude. -/
theorem one_sub_isF32 {s : α} (hs : IsF32 s) (h1 : 1 / 2 ≤ s) (h2 : s ≤ 2) :
    IsF32 (1 - s) ∧ (1 - s = 0 ∨ 1 / 2 ^ 24 ≤ |1 - s|) := by
  have hpos : 0 < s := by linarith
  obtain ⟨N, hN⟩ := isBinary_grid hs (-1) (by rw [abs_of_pos hpos]; norm_num; linarith)
  have hNs : s = (N : α) / 2 ^ 24 := by
    rw [hN]; norm_num; ring
  have hN1 : (2 : ℤ) ^ 23 ≤ N := by
    have : ((2 ^ 23 : ℤ) : α) ≤ (N : α) := by
      rw [hNs, le_div_iff₀ (by positivity)] at h1
      push_cast; linarith
    exact_mod_cast this
  have hN2 : N ≤ (2 : ℤ) ^ 25 := by
    have : (N : α) ≤ ((2 ^ 25 : ℤ) : α) := by
      rw [hNs, div_le_iff₀ (by positivity)] at h2
      push_cast; linarith
    exact_mod_cast this
  have hd : 1 - s = ((2 ^ 24 - N : ℤ) : α) * (2 : α) ^ (-24 : ℤ) := by
    rw [hNs]; push_cast; norm_num; ring
  norm_num at hN1 hN2
  constructor
  · by_cases htop : N = 33554432
    · refine isF32_of_eq (-1) 0 (by norm_num) (by norm_num) ?_
      rw [hNs, htop]; norm_num
    · exact isF32_of_eq (2 ^ 24 - N) (-24) (by rw [abs_lt]; constructor <;> omega)
        (by norm_num) hd
  · by_cases hz : (2 : ℤ) ^ 24 - N = 0
    · left; rw [hd, hz]; simp
    · right
      have habs : (1 : ℤ) ≤ |2 ^ 24 - N| := Int.one_le_abs hz
      have : (1 : α) ≤ |((2 ^ 24 - N : ℤ) : α)| := by exact_mod_cast habs
      rw [hd, abs_mul, abs_of_pos (zpow_pos (two_pos (α := α)) _)]
      calc (1 : α) / 2 ^ 24 = 1 * (2 : α) ^ (-24 : ℤ) := by norm_num
        _ ≤ |((2 ^ 24 - N : ℤ) : α)| * (2 : α) ^ (-24 : ℤ) :=
          mul_le_mul_of_nonneg_right this (zpow_pos two_pos _).le

/-- A `float` time step below `1/5` is at most the largest `float` below `1/5`. -/
theorem le_maxBelowFifth {deltaTime : α} (hdt : IsF32 deltaTime)
    (h1 : deltaTime < 1 / 5) : deltaTime ≤ maxBelowFifth := by
  rcases lt_or_le deltaTime (1 / 8) with h | h
  · unfold maxBelowFifth; linarith [show (1 : α) / 8 ≤ 13421772 / 2 ^ 26 by norm_num]
  · have hpos : 0 < deltaTime := by linarith
    obtain ⟨N, hN⟩ := isBinary_grid hdt (-3) (by rw [abs_of_pos hpos]; norm_num; linarith)
    have hNs : deltaTime = (N : α) / 2 ^ 26 := by
      rw [hN]; norm_num; ring
    have hlt : N < 13421773 := by
      have : (N : α) < ((13421773 : ℤ) : α) := by
        rw [hNs, div_lt_iff₀ (by positivity)] at h1
        push_cast; linarith
      exact_mod_cast this
    have hle : (N : α) ≤ ((13421772 : ℤ) : α) := by exact_mod_cast (show N ≤ 13421772 by omega)
    rw [hNs]; unfold maxBelowFifth
    apply div_le_div_of_nonneg_right _ (by positivity)
    simpa using hle

end PowersOfTwo

section Rounding

variable {α : Type} [LinearOrderedField α] [FloorRing α]

theorem floor_le_roundNearestEven (t : α) : ⌊t⌋ ≤ roundNearestEven t := by
  unfold roundNearestEven
  split_ifs <;> omega

theorem roundNearestEven_le_floor_add_one (t : α) : roundNearestEven t ≤ ⌊t⌋ + 1 := by
  unfold roundNearestEven
  split_ifs <;> omega

theorem int_le_roundNearestEven {t : α} {n : ℤ} (h : (n : α) ≤ t) : n ≤ roundNearestEven t :=
  le_trans (Int.le_floor.mpr h) (floor_le_roundNearestEven t)

theorem roundNearestEven_le_int {t : α} {n : ℤ} (h : t ≤ (n : α)) : roundNearestEven t ≤ n := by
  have hf : ⌊t⌋ ≤ n := by
    have := Int.floor_le t
    exact_mod_cast le_trans this h
  rcases hf.lt_or_eq with hlt | heq
  · exact le_trans (roundNearestEven_le_floor_add_one t) hlt
  · have ht : t = (⌊t⌋ : α) := by
      apply le_antisymm _ (Int.floor_le t)
      rw [heq]; exact h
    unfold roundNearestEven
    rw [if_pos (by rw [← ht, sub_self]; norm_num)]
    exact hf

@[simp] theorem roundNearestEven_intCast (n : ℤ) : roundNearestEven (n : α) = n :=
  le_antisymm (roundNearestEven_le_int le_rfl) (int_le_roundNearestEven le_rfl)

theorem roundNearestEven_mono {t u : α} (h : t ≤ u) : roundNearestEven t ≤ roundNearestEven u := by
  have hf : ⌊t⌋ ≤ ⌊u⌋ := Int.floor_mono h
  rcases hf.lt_or_eq with hlt | heq
  · exact le_trans (roundNearestEven_le_floor_add_one t)
      (le_trans hlt (floor_le_roundNearestEven u))
  · have hd : t - ⌊t⌋ ≤ u - ⌊u⌋ := by rw [heq]; linarith
    unfold roundNearestEven
    rw [heq] at hd ⊢
    split_ifs <;> first | omega | linarith

theorem roundNearestEven_eq_of_abs_sub_lt {t : α} {n : ℤ} (h : |t - n| < 1 / 2) :
    roundNearestEven t = n := by
  rw [abs_lt] at h
  obtain ⟨h1, h2⟩ := h
  rcases le_or_lt (n : α) t with hle | hlt
  · have hf : ⌊t⌋ = n := by
      rw [Int.floor_eq_iff]; constructor <;> linarith
    unfold roundNearestEven
    rw [hf, if_pos (by linarith)]
  · have hf : ⌊t⌋ = n - 1 := by
      rw [Int.floor_eq_iff]; push_cast; constructor <;> linarith
    unfold roundNearestEven
    rw [hf]
    push_cast
    rw [if_neg (by linarith), if_pos (by linarith)]
    ring

/-- A number halfway between two integers rounds to the even one. -/
theorem roundNearestEven_tie (k : ℤ) :
    roundNearestEven ((k : α) + 1 / 2) = if k % 2 = 0 then k else k + 1 := by
  have hf : ⌊(k : α) + 1 / 2⌋ = k := by
    rw [Int.floor_eq_iff]; constructor <;> linarith
  unfold roundNearestEven
  rw [hf, add_sub_cancel_left, if_neg (lt_irrefl _), if_neg (lt_irrefl _)]

theorem abs_roundNearestEven_sub_le (t : α) : |(roundNearestEven t : α) - t| ≤ 1 / 2 := by
  have h1 := Int.floor_le t
  have h2 := Int.lt_floor_add_one t
  unfold roundNearestEven
  rw [abs_le]
  split_ifs with ha hb hc
  · constructor <;> linarith
  · push_cast; constructor <;> linarith
  · constructor <;> linarith
  · push_cast; constructor <;> linarith

theorem roundNearestEven_neg (t : α) : roundNearestEven (-t) = -roundNearestEven t := by
  rcases eq_or_lt_of_le (Int.floor_le t) with heq | hlt
  · rw [← heq, ← Int.cast_neg, roundNearestEven_intCast, roundNearestEven_intCast]
  · have h2 := Int.lt_floor_add_one t
    have hf : ⌊-t⌋ = -⌊t⌋ - 1 := by
      rw [Int.floor_eq_iff]; push_cast; constructor <;> linarith
    unfold roundNearestEven
    rw [hf]
    push_cast
    split_ifs <;> first | omega | linarith

theorem ulpAt_pos (p : ℕ) (emin : ℤ) (x : α) : 0 < ulpAt p emin x :=
  zpow_pos two_pos _

theorem binadeExponent_neg (emin : ℤ) (x : α) :
    binadeExponent emin (-x) = binadeExponent emin x := by
  unfold binadeExponent; rw [abs_neg]

theorem roundBinary_neg (p : ℕ) (emin : ℤ) (x : α) :
    roundBinary p emin (-x) = -roundBinary p emin x := by
  unfold roundBinary ulpAt
  rw [binadeExponent_neg, neg_div, roundNearestEven_neg]
  push_cast
  ring

@[simp] theorem roundBinary_zero (p : ℕ) (emin : ℤ) : roundBinary p emin (0 : α) = 0 := by
  unfold roundBinary
  rw [zero_div]
  have : roundNearestEven (0 : α) = 0 := by
    have := roundNearestEven_intCast (α := α) 0
    simpa using this
  rw [this]; simp

theorem roundBinary_nonneg (p : ℕ) (emin : ℤ) {x : α} (h : 0 ≤ x) :
    0 ≤ roundBinary p emin x := by
  unfold roundBinary
  apply mul_nonneg _ (ulpAt_pos p emin x).le
  have : (0 : ℤ) ≤ roundNearestEven (x / ulpAt p emin x) :=
    int_le_roundNearestEven (by simpa using div_nonneg h (ulpAt_pos p emin x).le)
  exact_mod_cast this

theorem lt_zpow_binadeExponent_succ (emin : ℤ) (x : α) :
    |x| < (2 : α) ^ (binadeExponent emin x + 1) := by
  have h := Int.lt_zpow_succ_log_self (R := α) (b := 2) (by norm_num) |x|
  rw [Nat.cast_ofNat] at h
  refine lt_of_lt_of_le h (zpow_le_zpow_right₀ (by norm_num) ?_)
  unfold binadeExponent
  have := le_max_left (Int.log 2 |x|) emin
  omega

theorem zpow_binadeExponent_le {emin : ℤ} {x : α} (hx : x ≠ 0) (h : emin ≤ Int.log 2 |x|) :
    (2 : α) ^ (binadeExponent emin x) ≤ |x| := by
  have h2 := Int.zpow_log_le_self (R := α) (b := 2) (by norm_num) (abs_pos.mpr hx)
  rw [Nat.cast_ofNat] at h2
  unfold binadeExponent
  rw [max_eq_left h]
  exact h2

theorem binadeExponent_mono (emin : ℤ) {x y : α} (hx : x ≠ 0) (h : |x| ≤ |y|) :
    binadeExponent emin x ≤ binadeExponent emin y := by
  unfold binadeExponent
  exact max_le_max (Int.log_mono_right (abs_pos.mpr hx) h) le_rfl

/-- A positive number rounds to at most the top of its binade. -/
theorem roundBinary_le_zpow (p : ℕ) (emin : ℤ) {x : α} (hx : 0 < x) :
    roundBinary p emin x ≤ (2 : α) ^ (binadeExponent emin x + 1) := by
  have hu := ulpAt_pos p emin x
  have hlt := lt_zpow_binadeExponent_succ emin x
  rw [abs_of_pos hx] at hlt
  have hsplit : (2 : α) ^ (binadeExponent emin x + 1) = ((2 ^ p : ℤ) : α) * ulpAt p emin x := by
    unfold ulpAt
    push_cast
    rw [← zpow_natCast, ← zpow_add₀ (two_ne_zero)]
    congr 1
    ring
  have hq : x / ulpAt p emin x ≤ ((2 ^ p : ℤ) : α) := by
    rw [div_le_iff₀ hu, ← hsplit]; exact hlt.le
  have := roundNearestEven_le_int hq
  unfold roundBinary
  rw [hsplit]
  exact mul_le_mul_of_nonneg_right (by exact_mod_cast this) hu.le

/-- A positive number in the normal range rounds to at least the bottom of its
binade. -/
theorem zpow_le_roundBinary (p : ℕ) (hp : 1 ≤ p) (emin : ℤ) {x : α} (hx : 0 < x)
    (h : emin ≤ Int.log 2 |x|) :
    (2 : α) ^ (binadeExponent emin x) ≤ roundBinary p emin x := by
  have hu := ulpAt_pos p emin x
  have hle := zpow_binadeExponent_le hx.ne.symm h
  rw [abs_of_pos hx] at hle
  obtain ⟨q, rfl⟩ : ∃ q, p = q + 1 := ⟨p - 1, by omega⟩
  have hsplit : (2 : α) ^ (binadeExponent emin x) = ((2 ^ q : ℤ) : α) * ulpAt (q + 1) emin x := by
    unfold ulpAt
    push_cast
    rw [← zpow_natCast, ← zpow_add₀ (two_ne_zero)]
    congr 1
    ring
  have hq : ((2 ^ q : ℤ) : α) ≤ x / ulpAt (q + 1) emin x := by
    rw [le_div_iff₀ hu, ← hsplit]; exact hle
  have := int_le_roundNearestEven hq
  unfold roundBinary
  rw [hsplit]
  exact mul_le_mul_of_nonneg_right (by exact_mod_cast this) hu.le

theorem roundBinary_mono_of_pos (p : ℕ) (hp : 1 ≤ p) (emin : ℤ) {x y : α} (hx : 0 < x)
    (h : x ≤ y) : roundBinary p emin x ≤ roundBinary p emin y := by
  have hy : 0 < y := lt_of_lt_of_le hx h
  have he := binadeExponent_mono emin hx.ne.symm
    (show |x| ≤ |y| by rw [abs_of_pos hx, abs_of_pos hy]; exact h)
  rcases he.lt_or_eq with hlt | heq
  · have hlog : emin ≤ Int.log 2 |y| := by
      have h1 : emin ≤ binadeExponent emin x := le_max_right _ _
      by_contra hc
      push_neg at hc
      have : binadeExponent emin y = emin := by
        unfold binadeExponent; exact max_eq_right hc.le
      omega
    calc roundBinary p emin x ≤ (2 : α) ^ (binadeExponent emin x + 1) :=
          roundBinary_le_zpow p emin hx
      _ ≤ (2 : α) ^ (binadeExponent emin y) := zpow_le_zpow_right₀ (by norm_num) (by omega)
      _ ≤ roundBinary p emin y := zpow_le_roundBinary p hp emin hy hlog
  · unfold roundBinary ulpAt
    rw [heq]
    apply mul_le_mul_of_nonneg_right _ (zpow_pos two_pos _).le
    have : roundNearestEven (x / (2 : α) ^ (binadeExponent emin y - ((p : ℤ) - 1))) ≤
        roundNearestEven (y / (2 : α) ^ (binadeExponent emin y - ((p : ℤ) - 1))) :=
      roundNearestEven_mono (div_le_div_of_nonneg_right h (zpow_pos two_pos _).le)
    exact_mod_cast this

/-- Rounding is monotone. -/
theorem roundBinary_mono (p : ℕ) (hp : 1 ≤ p) (emin : ℤ) {x y : α} (h : x ≤ y) :
    roundBinary p emin x ≤ roundBinary p emin y := by
  rcases lt_trichotomy x 0 with hx | hx | hx
  · rcases le_or_lt 0 y with hy | hy
    · have h1 := roundBinary_nonneg p emin (neg_nonneg.mpr hx.le)
      rw [roundBinary_neg] at h1
      have h2 := roundBinary_nonneg p emin hy
      linarith
    · have := roundBinary_mono_of_pos p hp emin (neg_pos.mpr hy) (neg_le_neg h)
      rw [roundBinary_neg, roundBinary_neg] at this
      linarith
  · rw [hx, roundBinary_zero]
    exact roundBinary_nonneg p emin (hx ▸ h)
  · exact roundBinary_mono_of_pos p hp emin hx h

/-- A binary floating-point number rounds to itself. -/
theorem roundBinary_of_isBinary {p : ℕ} {emin : ℤ} {x : α} (h : IsBinary p emin x) :
    roundBinary p emin x = x := by
  obtain ⟨m, e, hm, he, rfl⟩ := h
  by_cases hx : (m : α) * (2 : α) ^ e = 0
  · rw [hx, roundBinary_zero]
  have hlog : Int.log 2 |(m : α) * (2 : α) ^ e| < e + p := by
    rw [← Int.lt_zpow_iff_log_lt (by norm_num) (abs_pos.mpr hx), Nat.cast_ofNat]
    exact abs_lt_zpow_of_isBinary hm
  have hE : binadeExponent emin ((m : α) * (2 : α) ^ e) - ((p : ℤ) - 1) ≤ e := by
    unfold binadeExponent
    rcases max_cases (Int.log 2 |(m : α) * (2 : α) ^ e|) emin with ⟨h1, -⟩ | ⟨h1, -⟩ <;>
      rw [h1] <;> omega
  obtain ⟨n, hn⟩ := zpow_nonneg_eq_intCast (α := α) (sub_nonneg.mpr hE)
  have hq : (m : α) * (2 : α) ^ e / ulpAt p emin ((m : α) * (2 : α) ^ e) =
      ((m * 2 ^ n : ℤ) : α) := by
    unfold ulpAt
    rw [mul_div_assoc, ← zpow_sub₀ (two_ne_zero), hn]
    push_cast; rfl
  unfold roundBinary
  rw [hq, roundNearestEven_intCast, ← hq, div_mul_cancel₀ _ (ulpAt_pos p emin _).ne.symm]

/-- The result of rounding is a binary floating-point number. -/
theorem isBinary_roundBinary (p : ℕ) (hp : 1 ≤ p) (emin : ℤ) (x : α) :
    IsBinary p emin (roundBinary p emin x) := by
  have hu := ulpAt_pos p emin x
  have hlt := lt_zpow_binadeExponent_succ emin x
  have hsplit : (2 : α) ^ (binadeExponent emin x + 1) = ((2 ^ p : ℤ) : α) * ulpAt p emin x := by
    unfold ulpAt
    push_cast
    rw [← zpow_natCast, ← zpow_add₀ (two_ne_zero)]
    congr 1
    ring
  rw [hsplit, abs_lt] at hlt
  have h1 : x / ulpAt p emin x ≤ ((2 ^ p : ℤ) : α) := by
    rw [div_le_iff₀ hu]; exact hlt.2.le
  have h2 : ((-(2 ^ p) : ℤ) : α) ≤ x / ulpAt p emin x := by
    rw [le_div_iff₀ hu]; push_cast; push_cast at hlt; linarith [hlt.1]
  have hn1 := roundNearestEven_le_int h1
  have hn2 := int_le_roundNearestEven h2
  have hemin : emin ≤ binadeExponent emin x := le_max_right _ _
  have hpow : (1 : ℤ) < 2 ^ p := by
    calc (1 : ℤ) < 2 ^ 1 := by norm_num
      _ ≤ 2 ^ p := pow_le_pow_right₀ (by norm_num) hp
  rcases hn1.lt_or_eq with hlt1 | heq1
  · rcases hn2.lt_or_eq with hlt2 | heq2
    · refine ⟨roundNearestEven (x / ulpAt p emin x), binadeExponent emin x - ((p : ℤ) - 1), ?_,
        by omega, rfl⟩
      rw [abs_lt]; exact ⟨hlt2, hlt1⟩
    · refine ⟨-1, binadeExponent emin x + 1, ?_, by omega, ?_⟩
      · rw [abs_neg, abs_one]; exact hpow
      · unfold roundBinary
        rw [← heq2, hsplit]; push_cast; ring
  · refine ⟨1, binadeExponent emin x + 1, ?_, by omega, ?_⟩
    · rw [abs_one]; exact hpow
    · unfold roundBinary
      rw [heq1, hsplit]; push_cast; ring

/-- The rounding error is at most half the spacing. -/
theorem abs_roundBinary_sub_le (p : ℕ) (emin : ℤ) (x : α) :
    |roundBinary p emin x - x| ≤ ulpAt p emin x / 2 := by
  have hu := ulpAt_pos p emin x
  have h := abs_roundNearestEven_sub_le (x / ulpAt p emin x)
  have e : roundBinary p emin x - x =
      ((roundNearestEven (x / ulpAt p emin x) : α) - x / ulpAt p emin x) * ulpAt p emin x := by
    unfold roundBinary
    rw [sub_mul, div_mul_cancel₀ _ hu.ne.symm]
  rw [e, abs_mul, abs_of_pos hu]
  calc |(roundNearestEven (x / ulpAt p emin x) : α) - x / ulpAt p emin x| * ulpAt p emin x
      ≤ 1 / 2 * ulpAt p emin x := mul_le_mul_of_nonneg_right h hu.le
    _ = ulpAt p emin x / 2 := by ring

/-- In the normal range the relative rounding error is at most `2 ^ (-p)`. -/
theorem abs_roundBinary_sub_le_mul (p : ℕ) {emin : ℤ} {x : α} (hx : x ≠ 0)
    (h : emin ≤ Int.log 2 |x|) :
    |roundBinary p emin x - x| ≤ |x| / 2 ^ p := by
  have h1 := abs_roundBinary_sub_le p emin x
  have h2 := zpow_binadeExponent_le hx h
  have e : ulpAt p emin x / 2 = (2 : α) ^ (binadeExponent emin x) / 2 ^ p := by
    unfold ulpAt
    rw [show binadeExponent emin x - ((p : ℤ) - 1) = binadeExponent emin x + 1 - (p : ℤ) by ring,
      zpow_sub₀ (two_ne_zero), zpow_add₀ (two_ne_zero), zpow_natCast, zpow_one]
    field_simp
    ring
  rw [e] at h1
  exact le_trans h1 (div_le_div_of_nonneg_right h2 (by positivity))

/-- The rounding error is at most `2 ^ (-p)` times the magnitude, plus half the
spacing of the subnormal numbers. -/
theorem abs_roundBinary_sub_le_add (p : ℕ) (emin : ℤ) (x : α) :
    |roundBinary p emin x - x| ≤ |x| / 2 ^ p + (2 : α) ^ (emin - (p : ℤ)) := by
  by_cases hx : x = 0
  · rw [hx, roundBinary_zero]; simp only [sub_zero, abs_zero, zero_div, zero_add]
    exact (zpow_pos two_pos _).le
  rcases le_or_lt emin (Int.log 2 |x|) with h | h
  · have := abs_roundBinary_sub_le_mul p hx h
    have h2 : (0 : α) ≤ (2 : α) ^ (emin - (p : ℤ)) := (zpow_pos two_pos _).le
    linarith
  · have h1 := abs_roundBinary_sub_le p emin x
    have hb : binadeExponent emin x = emin := by
      unfold binadeExponent; exact max_eq_right h.le
    have e : ulpAt p emin x / 2 = (2 : α) ^ (emin - (p : ℤ)) := by
      unfold ulpAt
      rw [hb, show emin - ((p : ℤ) - 1) = emin - (p : ℤ) + 1 by ring, zpow_add₀ (two_ne_zero),
        zpow_one]
      ring
    rw [e] at h1
    have h2 : (0 : α) ≤ |x| / 2 ^ p := by positivity
    linarith

theorem binadeExponent_eq {emin E : ℤ} {x : α} (h1 : (2 : α) ^ E ≤ |x|)
    (h2 : |x| < (2 : α) ^ (E + 1)) (hE : emin ≤ E) : binadeExponent emin x = E := by
  have hpos : 0 < |x| := lt_of_lt_of_le (zpow_pos two_pos E) h1
  have hl1 : E ≤ Int.log 2 |x| := by
    rw [← Int.zpow_le_iff_le_log (by norm_num) hpos, Nat.cast_ofNat]; exact h1
  have hl2 : Int.log 2 |x| < E + 1 := by
    rw [← Int.lt_zpow_iff_log_lt (by norm_num) hpos, Nat.cast_ofNat]; exact h2
  unfold binadeExponent
  rw [max_eq_left (by omega)]
  omega

/-- Evaluation of a rounding: in the binade of exponent `E`, a number within
half a spacing of the grid point `n * 2 ^ (E - (p - 1))` rounds to it. -/
theorem roundBinary_eq_of_near {p : ℕ} {emin : ℤ} {x : α} (E n : ℤ)
    (h1 : (2 : α) ^ E ≤ |x|) (h2 : |x| < (2 : α) ^ (E + 1)) (hE : emin ≤ E)
    (hn : |x - (n : α) * (2 : α) ^ (E - ((p : ℤ) - 1))| < (2 : α) ^ (E - ((p : ℤ) - 1)) / 2) :
    roundBinary p emin x = (n : α) * (2 : α) ^ (E - ((p : ℤ) - 1)) := by
  have hb := binadeExponent_eq h1 h2 hE
  have hu : (0 : α) < (2 : α) ^ (E - ((p : ℤ) - 1)) := zpow_pos two_pos _
  have e : x / (2 : α) ^ (E - ((p : ℤ) - 1)) - (n : α) =
      (x - (n : α) * (2 : α) ^ (E - ((p : ℤ) - 1))) / (2 : α) ^ (E - ((p : ℤ) - 1)) := by
    field_simp
    ring
  have hr : roundNearestEven (x / (2 : α) ^ (E - ((p : ℤ) - 1))) = n := by
    apply roundNearestEven_eq_of_abs_sub_lt
    rw [e, abs_div, abs_of_pos hu, div_lt_iff₀ hu]
    linarith
  unfold roundBinary ulpAt
  rw [hb, hr]

end Rounding


namespace Vec2

variable {α : Type}

@[simp] theorem add_x [Add α] (a b : Vec2 α) : (a + b).x = a.x + b.x := rfl
@[simp] theorem add_y [Add α] (a b : Vec2 α) : (a + b).y = a.y + b.y := rfl
@[simp] theorem sub_x [Sub α] (a b : Vec2 α) : (a - b).x = a.x - b.x := rfl
@[simp] theorem sub_y [Sub α] (a b : Vec2 α) : (a - b).y = a.y - b.y := rfl
@[simp] theorem neg_x [Neg α] (a : Vec2 α) : (-a).x = -a.x := rfl
@[simp] theorem neg_y [Neg α] (a : Vec2 α) : (-a).y = -a.y := rfl
@[simp] theorem smul_x [Mul α] (a : Vec2 α) (s : α) : (a * s).x = a.x * s := rfl
@[simp] theorem smul_y [Mul α] (a : Vec2 α) (s : α) : (a * s).y = a.y * s := rfl
@[simp] theorem splat_x (s : α) : (splat s).x = s := rfl
@[simp] theorem splat_y (s : α) : (splat s).y = s := rfl

end Vec2

section Collision

variable {α : Type} [LinearOrderedField α]

/-! ## `CheckCollision` -/

theorem CheckCollision_iff (ball : Ball α) (obj : StaticObject α) :
    CheckCollision ball obj = true ↔
      (obj.position.x ≤ ball.position.x + ball.radius ∧
        ball.position.x - ball.radius ≤ obj.position.x + obj.size.x ∧
        obj.position.y ≤ ball.position.y + ball.radius ∧
        ball.position.y - ball.radius ≤ obj.position.y + obj.size.y) := by
  simp [CheckCollision]

theorem intervalsIntersect_iff {a b c d : α} (hab : a ≤ b) (hcd : c ≤ d) :
    IntervalsIntersect a b c d ↔ c ≤ b ∧ a ≤ d := by
  constructor
  · rintro ⟨t, ⟨h1, h2⟩, h3, h4⟩
    exact ⟨le_trans h3 h2, le_trans h1 h4⟩
  · rintro ⟨h1, h2⟩
    exact ⟨max a c, ⟨le_max_left _ _, max_le hab h1⟩, le_max_right _ _, max_le h2 hcd⟩

end Collision

/-- C2: `CheckCollision` is a conservative approximation of the intersection of
the disc with the rectangle.  Whenever some point lies both within distance `r`
of the ball position and inside the rectangle `[q, q + s]`, `CheckCollision`
returns true; the converse fails: the ball at `(-1, -1)` of radius `1` against
the object at `(0, 0)` of size `(1, 1)` is reported as colliding although the
disc and the rectangle share no point. -/
theorem checkCollision_conservative :
    (∀ (α : Type) [LinearOrderedField α] (ball : Ball α) (obj : StaticObject α),
        0 ≤ ball.radius → 0 ≤ obj.size.x → 0 ≤ obj.size.y →
        (∃ x y : α, InDisc ball x y ∧ InRect obj x y) → CheckCollision ball obj = true) ∧
      (CheckCollision (ballAt (-1) (-1) 1 0 0 1 1 : Ball ℝ) (objAt 0 0 1 1) = true ∧
        ¬ ∃ x y : ℝ, InDisc (ballAt (-1) (-1) 1 0 0 1 1 : Ball ℝ) x y ∧
            InRect (objAt 0 0 1 1 : StaticObject ℝ) x y) := by
  refine ⟨?_, ?_, ?_⟩
  · intro α _ ball obj _ _ _ h
    obtain ⟨x, y, ⟨hr, hd⟩, ⟨hx1, hx2⟩, hy1, hy2⟩ := h
    have hx : (x - ball.position.x) ^ 2 ≤ ball.radius ^ 2 :=
      le_trans (le_add_of_nonneg_right (sq_nonneg _)) hd
    have hy : (y - ball.position.y) ^ 2 ≤ ball.radius ^ 2 :=
      le_trans (le_add_of_nonneg_left (sq_nonneg _)) hd
    obtain ⟨hx3, hx4⟩ := abs_le_of_sq_le_sq' hx hr
    obtain ⟨hy3, hy4⟩ := abs_le_of_sq_le_sq' hy hr
    rw [CheckCollision_iff]
    refine ⟨?_, ?_, ?_, ?_⟩ <;> linarith
  · rw [CheckCollision_iff]
    norm_num [ballAt, objAt, initialBall, staticObj]
  · rintro ⟨x, y, ⟨-, hd⟩, ⟨hx1, -⟩, hy1, -⟩
    norm_num [ballAt, objAt, initialBall, staticObj] at hd hx1 hy1
    nlinarith [sq_nonneg x, sq_nonneg y]

/-- Instance of C2 at the centre of the object of `main`: the point `(400, 350)`
lies in the disc of the ball at `(400, 350)` and in the rectangle. -/
theorem checkCollision_conservative_witness :
    CheckCollision (ballAt 400 350 50 0 0 1 1 : Ball ℚ) staticObj = true :=
  checkCollision_conservative.1 ℚ (ballAt 400 350 50 0 0 1 1) staticObj
    (by norm_num [ballAt]) (by norm_num [staticObj]) (by norm_num [staticObj])
    ⟨400, 350, by norm_num [InDisc, ballAt], by norm_num [InRect, staticObj]⟩

section Update

variable {α : Type} [LinearOrderedField α]

/-! ## The per-frame update -/

theorem frame_no_button (sqrt : α → α) (deltaTime : α) (obj : StaticObject α) (ball : Ball α) :
    frame sqrt none deltaTime obj ball = some (physicsStep deltaTime obj ball) := rfl

@[simp] theorem integrate_position (deltaTime : α) (ball : Ball α) :
    (integrate deltaTime ball).position = ball.position + ball.velocity * deltaTime := rfl

@[simp] theorem integrate_velocity (deltaTime : α) (ball : Ball α) :
    (integrate deltaTime ball).velocity = ball.velocity := rfl

@[simp] theorem integrate_radius (deltaTime : α) (ball : Ball α) :
    (integrate deltaTime ball).radius = ball.radius := rfl

@[simp] theorem integrate_squashFactor (deltaTime : α) (ball : Ball α) :
    (integrate deltaTime ball).squashFactor = ball.squashFactor := rfl

@[simp] theorem wallCollisionX_position (ball : Ball α) :
    (wallCollisionX ball).position = ball.position := by
  unfold wallCollisionX; split <;> rfl

@[simp] theorem wallCollisionX_radius (ball : Ball α) :
    (wallCollisionX ball).radius = ball.radius := by
  unfold wallCollisionX; split <;> rfl

@[simp] theorem wallCollisionY_position (ball : Ball α) :
    (wallCollisionY ball).position = ball.position := by
  unfold wallCollisionY; split <;> rfl

@[simp] theorem wallCollisionY_radius (ball : Ball α) :
    (wallCollisionY ball).radius = ball.radius := by
  unfold wallCollisionY; split <;> rfl

@[simp] theorem objectCollision_position (obj : StaticObject α) (ball : Ball α) :
    (objectCollision obj ball).position = ball.position := by
  unfold objectCollision; split <;> rfl

@[simp] theorem hitsWallY_wallCollisionX (ball : Ball α) :
    hitsWallY (wallCollisionX ball) ↔ hitsWallY ball := by
  simp [hitsWallY]

@[simp] theorem checkCollision_walls (obj : StaticObject α) (ball : Ball α) :
    CheckCollision (wallCollisionY (wallCollisionX ball)) obj = CheckCollision ball obj := by
  simp [CheckCollision]

/-- The position after a frame without input is the integrated position. -/
theorem physicsStep_position (deltaTime : α) (obj : StaticObject α) (ball : Ball α) :
    (physicsStep deltaTime obj ball).position = ball.position + ball.velocity * deltaTime := by
  simp [physicsStep, relax, collide]

/-- The squash factor after a frame is the relaxation of the one left by the
collision tests. -/
theorem physicsStep_squashFactor (deltaTime : α) (obj : StaticObject α) (ball : Ball α) :
    (physicsStep deltaTime obj ball).squashFactor =
      relaxSquash deltaTime (collide obj (integrate deltaTime ball)).squashFactor := rfl

theorem physicsStep_velocity (deltaTime : α) (obj : StaticObject α) (ball : Ball α) :
    (physicsStep deltaTime obj ball).velocity =
      (collide obj (integrate deltaTime ball)).velocity := rfl

theorem wallCollisionX_velocity (ball : Ball α) :
    (wallCollisionX ball).velocity =
      ⟨(if hitsWallX ball then -1 else 1) * ball.velocity.x, ball.velocity.y⟩ := by
  unfold wallCollisionX; split <;> simp

theorem wallCollisionY_velocity (ball : Ball α) :
    (wallCollisionY ball).velocity =
      ⟨ball.velocity.x, (if hitsWallY ball then -1 else 1) * ball.velocity.y⟩ := by
  unfold wallCollisionY; split <;> simp

theorem objectCollision_velocity (obj : StaticObject α) (ball : Ball α) :
    (objectCollision obj ball).velocity =
      ⟨(if CheckCollision ball obj = true then -1 else 1) * ball.velocity.x,
        (if CheckCollision ball obj = true then -1 else 1) * ball.velocity.y⟩ := by
  unfold objectCollision; split <;> ext <;> simp

theorem wallCollisionX_squashFactor (ball : Ball α) :
    (wallCollisionX ball).squashFactor =
      if hitsWallX ball then ⟨7 / 10, 13 / 10⟩ else ball.squashFactor := by
  unfold wallCollisionX; split <;> rfl

theorem wallCollisionY_squashFactor (ball : Ball α) :
    (wallCollisionY ball).squashFactor =
      if hitsWallY ball then ⟨13 / 10, 7 / 10⟩ else ball.squashFactor := by
  unfold wallCollisionY; split <;> rfl

theorem objectCollision_squashFactor (obj : StaticObject α) (ball : Ball α) :
    (objectCollision obj ball).squashFactor =
      if CheckCollision ball obj = true then ⟨13 / 10, 7 / 10⟩ else ball.squashFactor := by
  unfold objectCollision; split <;> rfl

/-- When the object test fires, the squash factor left by the collision tests is
the one of the object, whatever the wall tests assigned. -/
theorem collide_squashFactor_of_hit (obj : StaticObject α) (ball : Ball α)
    (h : CheckCollision ball obj = true) :
    (collide obj ball).squashFactor = ⟨13 / 10, 7 / 10⟩ := by
  rw [collide, objectCollision_squashFactor, checkCollision_walls, if_pos h]

/-- The velocity left by the collision tests: each test that fires negates the
components it handles. -/
theorem collide_velocity (obj : StaticObject α) (ball : Ball α) :
    (collide obj ball).velocity =
      ⟨(if CheckCollision ball obj = true then -1 else 1) *
          ((if hitsWallX ball then -1 else 1) * ball.velocity.x),
        (if CheckCollision ball obj = true then -1 else 1) *
          ((if hitsWallY ball then -1 else 1) * ball.velocity.y)⟩ := by
  rw [collide, objectCollision_velocity, checkCollision_walls, wallCollisionY_velocity,
    wallCollisionX_velocity]
  simp

/-- The squash factor left by the collision tests when the object test does not
fire. -/
theorem collide_squashFactor_of_miss (obj : StaticObject α) (ball : Ball α)
    (h : CheckCollision ball obj = false) :
    (collide obj ball).squashFactor =
      if hitsWallY ball then ⟨13 / 10, 7 / 10⟩
      else if hitsWallX ball then ⟨7 / 10, 13 / 10⟩ else ball.squashFactor := by
  rw [collide, objectCollision_squashFactor, checkCollision_walls, h,
    wallCollisionY_squashFactor, wallCollisionX_squashFactor]
  simp

theorem relaxSquash_x (deltaTime : α) (s : Vec2 α) :
    (relaxSquash deltaTime s).x = s.x + (1 - s.x) * 5 * deltaTime := rfl

theorem relaxSquash_y (deltaTime : α) (s : Vec2 α) :
    (relaxSquash deltaTime s).y = s.y + (1 - s.y) * 5 * deltaTime := rfl

theorem relaxSquash_wall (deltaTime : α) :
    relaxSquash deltaTime (⟨7 / 10, 13 / 10⟩ : Vec2 α) =
      ⟨7 / 10 + 3 / 2 * deltaTime, 13 / 10 - 3 / 2 * deltaTime⟩ := by
  ext
  · rw [relaxSquash_x]; ring
  · rw [relaxSquash_y]; ring

theorem relaxSquash_object (deltaTime : α) :
    relaxSquash deltaTime (⟨13 / 10, 7 / 10⟩ : Vec2 α) =
      ⟨13 / 10 - 3 / 2 * deltaTime, 7 / 10 + 3 / 2 * deltaTime⟩ := by
  ext
  · rw [relaxSquash_x]; ring
  · rw [relaxSquash_y]; ring

/-- After integration with a non-negative time step, a ball that started at
`position.x = radius - 1` moving left is across the left wall. -/
theorem hitsWallX_of_left (ball : Ball α) (deltaTime : α)
    (hpos : ball.position.x = ball.radius - 1) (hvel : ball.velocity.x = -100)
    (hdt : 0 ≤ deltaTime) : hitsWallX (integrate deltaTime ball) := by
  left
  simp only [integrate_position, integrate_radius, Vec2.add_x, Vec2.smul_x, hpos, hvel]
  linarith

/-- C3, amended: wall-bounce scenario.  A body at `position.x = radius - 1` with
`velocity.x = -100`, no pointer button held, a time step `deltaTime ≥ 0`, and an
integrated position that fires neither the Y-wall test nor `CheckCollision`:
after one update `velocity.x` is `+100`; the squash factor assigned by the wall
test is exactly `(0.7, 1.3)` and, after the relaxation that ends the same
update, it is `(0.7 + 1.5 deltaTime, 1.3 - 1.5 deltaTime)`, which is
`(0.7, 1.3)` exactly when `deltaTime = 0`. -/
theorem wall_bounce_left (sqrt : α → α) (obj : StaticObject α) (ball : Ball α) (deltaTime : α)
    (hpos : ball.position.x = ball.radius - 1) (hvel : ball.velocity.x = -100)
    (hdt : 0 ≤ deltaTime)
    (hY : ¬ hitsWallY (integrate deltaTime ball))
    (hobj : CheckCollision (integrate deltaTime ball) obj = false) :
    ∃ b : Ball α, frame sqrt none deltaTime obj ball = some b ∧
      b.velocity.x = 100 ∧
      (collide obj (integrate deltaTime ball)).squashFactor = ⟨7 / 10, 13 / 10⟩ ∧
      b.squashFactor = ⟨7 / 10 + 3 / 2 * deltaTime, 13 / 10 - 3 / 2 * deltaTime⟩ ∧
      (b.squashFactor = ⟨7 / 10, 13 / 10⟩ ↔ deltaTime = 0) := by
  have hX := hitsWallX_of_left ball deltaTime hpos hvel hdt
  have hsq : (collide obj (integrate deltaTime ball)).squashFactor = ⟨7 / 10, 13 / 10⟩ := by
    rw [collide_squashFactor_of_miss _ _ hobj, if_neg hY, if_pos hX]
  have hfin : (physicsStep deltaTime obj ball).squashFactor =
      ⟨7 / 10 + 3 / 2 * deltaTime, 13 / 10 - 3 / 2 * deltaTime⟩ := by
    rw [physicsStep_squashFactor, hsq, relaxSquash_wall]
  refine ⟨physicsStep deltaTime obj ball, frame_no_button _ _ _ _, ?_, hsq, hfin, ?_⟩
  · rw [physicsStep_velocity, collide_velocity, hobj, if_pos hX]
    simp [hvel]
  · rw [hfin]
    constructor
    · intro h
      have hx := congrArg Vec2.x h
      simp only at hx
      linarith
    · intro h
      rw [h]; ext <;> simp

/-- Instance of C3 (amended): the ball of radius `50` at `(49, 300)` moving left
at `100`, time step `1/100`, against the object of `main`. -/
theorem wall_bounce_left_witness :
    ∃ b : Ball ℝ, frame Real.sqrt none (1 / 100) staticObj (ballAt 49 300 50 (-100) 0 1 1) = some b ∧
      b.velocity.x = 100 ∧
      (collide staticObj (integrate (1 / 100) (ballAt 49 300 50 (-100) 0 1 1 : Ball ℝ))).squashFactor
        = ⟨7 / 10, 13 / 10⟩ ∧
      b.squashFactor = ⟨7 / 10 + 3 / 2 * (1 / 100), 13 / 10 - 3 / 2 * (1 / 100)⟩ ∧
      (b.squashFactor = ⟨7 / 10, 13 / 10⟩ ↔ (1 / 100 : ℝ) = 0) :=
  wall_bounce_left Real.sqrt staticObj (ballAt 49 300 50 (-100) 0 1 1) (1 / 100)
    (by norm_num [ballAt]) (by norm_num [ballAt]) (by norm_num)
    (by norm_num [hitsWallY, ballAt, SCREEN_HEIGHT])
    (by rw [← Bool.not_eq_true, CheckCollision_iff]; norm_num [ballAt, staticObj])

/-- C3 as stated fails: the ball of radius `50` at `(49, 300)` with velocity
`(-100, 0)`, updated with time step `1/100` and no button held, ends the update
with `velocity.x = 100` but with squash factor `(0.715, 1.285)`, not
`(0.7, 1.3)`: the relaxation at the end of the update has already acted. -/
theorem wall_bounce_squash_relaxed :
    ∃ b : Ball ℝ, frame Real.sqrt none (1 / 100) staticObj (ballAt 49 300 50 (-100) 0 1 1) = some b ∧
      b.velocity.x = 100 ∧
      b.squashFactor = ⟨143 / 200, 257 / 200⟩ ∧
      b.squashFactor ≠ ⟨7 / 10, 13 / 10⟩ := by
  have hX : hitsWallX (integrate (1 / 100) (ballAt 49 300 50 (-100) 0 1 1 : Ball ℝ)) :=
    hitsWallX_of_left _ _ (by norm_num [ballAt]) (by norm_num [ballAt]) (by norm_num)
  have hY : ¬ hitsWallY (integrate (1 / 100) (ballAt 49 300 50 (-100) 0 1 1 : Ball ℝ)) := by
    norm_num [hitsWallY, ballAt, SCREEN_HEIGHT]
  have hobj : CheckCollision (integrate (1 / 100) (ballAt 49 300 50 (-100) 0 1 1 : Ball ℝ))
      staticObj = false := by
    rw [← Bool.not_eq_true, CheckCollision_iff]; norm_num [ballAt, staticObj]
  have hfin : (physicsStep (1 / 100) staticObj (ballAt 49 300 50 (-100) 0 1 1 : Ball ℝ)).squashFactor
      = ⟨143 / 200, 257 / 200⟩ := by
    rw [physicsStep_squashFactor, collide_squashFactor_of_miss _ _ hobj, if_neg hY, if_pos hX,
      relaxSquash_wall]
    ext <;> norm_num
  refine ⟨_, frame_no_button _ _ _ _, ?_, hfin, ?_⟩
  · rw [physicsStep_velocity, collide_velocity, hobj, if_pos hX]
    norm_num [ballAt]
  · rw [hfin]
    intro h
    have hx := congrArg Vec2.x h
    norm_num at hx

/-- C4, amended: obstacle-bounce scenario.  A body with velocity `(50, -50)`
whose integrated position overlaps the obstacle (`CheckCollision` true), no
pointer button held: the squash factor assigned by the collision tests is the
obstacle one, `(1.3, 0.7)`, also when a wall test assigned another one earlier in
the frame; after the relaxation that ends the same update it is
`(1.3 - 1.5 deltaTime, 0.7 + 1.5 deltaTime)`, which is `(1.3, 0.7)` exactly when
`deltaTime = 0`.  The velocity after the update is `(-50, 50)` when no wall test
fired; a wall test that fired has negated its component once more. -/
theorem obstacle_bounce (sqrt : α → α) (obj : StaticObject α) (ball : Ball α) (deltaTime : α)
    (hvel : ball.velocity = ⟨50, -50⟩)
    (hhit : CheckCollision (integrate deltaTime ball) obj = true) :
    ∃ b : Ball α, frame sqrt none deltaTime obj ball = some b ∧
      (collide obj (integrate deltaTime ball)).squashFactor = ⟨13 / 10, 7 / 10⟩ ∧
      b.squashFactor = ⟨13 / 10 - 3 / 2 * deltaTime, 7 / 10 + 3 / 2 * deltaTime⟩ ∧
      (b.squashFactor = ⟨13 / 10, 7 / 10⟩ ↔ deltaTime = 0) ∧
      b.velocity = ⟨if hitsWallX (integrate deltaTime ball) then 50 else -50,
        if hitsWallY (integrate deltaTime ball) then -50 else 50⟩ := by
  have hsq := collide_squashFactor_of_hit obj (integrate deltaTime ball) hhit
  have hfin : (physicsStep deltaTime obj ball).squashFactor =
      ⟨13 / 10 - 3 / 2 * deltaTime, 7 / 10 + 3 / 2 * deltaTime⟩ := by
    rw [physicsStep_squashFactor, hsq, relaxSquash_object]
  refine ⟨physicsStep deltaTime obj ball, frame_no_button _ _ _ _, hsq, hfin, ?_, ?_⟩
  · rw [hfin]
    constructor
    · intro h
      have hx := congrArg Vec2.x h
      simp only at hx
      linarith
    · intro h
      rw [h]; ext <;> simp
  · rw [physicsStep_velocity, collide_velocity, if_pos hhit, integrate_velocity, hvel]
    ext
    · by_cases hX : hitsWallX (integrate deltaTime ball) <;> simp [hX]
    · by_cases hY : hitsWallY (integrate deltaTime ball) <;> simp [hY]

/-- Instance of C4 (amended): the ball of `main` at `(400, 350)` with velocity
`(50, -50)` and time step `1/100`. -/
theorem obstacle_bounce_witness :
    ∃ b : Ball ℝ, frame Real.sqrt none (1 / 100) staticObj (ballAt 400 350 50 50 (-50) 1 1) = some b ∧
      (collide staticObj (integrate (1 / 100) (ballAt 400 350 50 50 (-50) 1 1 : Ball ℝ))).squashFactor
        = ⟨13 / 10, 7 / 10⟩ ∧
      b.squashFactor = ⟨13 / 10 - 3 / 2 * (1 / 100), 7 / 10 + 3 / 2 * (1 / 100)⟩ ∧
      (b.squashFactor = ⟨13 / 10, 7 / 10⟩ ↔ (1 / 100 : ℝ) = 0) ∧
      b.velocity = ⟨if hitsWallX (integrate (1 / 100) (ballAt 400 350 50 50 (-50) 1 1 : Ball ℝ))
          then 50 else -50,
        if hitsWallY (integrate (1 / 100) (ballAt 400 350 50 50 (-50) 1 1 : Ball ℝ))
          then -50 else 50⟩ :=
  obstacle_bounce Real.sqrt staticObj (ballAt 400 350 50 50 (-50) 1 1) (1 / 100) rfl
    (by rw [CheckCollision_iff]; norm_num [ballAt, staticObj])

/-- C4 as stated fails in two ways.  (a) The ball of radius `50` at `(400, 350)`
with velocity `(50, -50)`, updated with time step `1/100`, overlaps the obstacle
and ends the update with velocity `(-50, 50)` but squash factor
`(1.285, 0.715)`, not `(1.3, 0.7)`.  (b) The ball of radius `200` at
`(100, 350)` with velocity `(50, -50)`, updated with time step `0`, fires the
X-wall test and the obstacle test in the same frame; its squash factor ends as
`(1.3, 0.7)` but its velocity as `(50, 50)`, not `(-50, 50)`. -/
theorem obstacle_bounce_fails :
    (∃ b : Ball ℝ,
        frame Real.sqrt none (1 / 100) staticObj (ballAt 400 350 50 50 (-50) 1 1) = some b ∧
        CheckCollision (integrate (1 / 100) (ballAt 400 350 50 50 (-50) 1 1 : Ball ℝ)) staticObj
          = true ∧
        b.velocity = ⟨-50, 50⟩ ∧
        b.squashFactor = ⟨257 / 200, 143 / 200⟩ ∧
        b.squashFactor ≠ ⟨13 / 10, 7 / 10⟩) ∧
      (∃ b : Ball ℝ,
        frame Real.sqrt none 0 staticObj (ballAt 100 350 200 50 (-50) 1 1) = some b ∧
        CheckCollision (integrate 0 (ballAt 100 350 200 50 (-50) 1 1 : Ball ℝ)) staticObj = true ∧
        hitsWallX (integrate 0 (ballAt 100 350 200 50 (-50) 1 1 : Ball ℝ)) ∧
        b.squashFactor = ⟨13 / 10, 7 / 10⟩ ∧
        b.velocity = ⟨50, 50⟩ ∧
        b.velocity ≠ ⟨-50, 50⟩) := by
  constructor
  · have hhit : CheckCollision (integrate (1 / 100) (ballAt 400 350 50 50 (-50) 1 1 : Ball ℝ))
        staticObj = true := by
      rw [CheckCollision_iff]; norm_num [ballAt, staticObj]
    have hX : ¬ hitsWallX (integrate (1 / 100) (ballAt 400 350 50 50 (-50) 1 1 : Ball ℝ)) := by
      norm_num [hitsWallX, ballAt, SCREEN_WIDTH]
    have hY : ¬ hitsWallY (integrate (1 / 100) (ballAt 400 350 50 50 (-50) 1 1 : Ball ℝ)) := by
      norm_num [hitsWallY, ballAt, SCREEN_HEIGHT]
    have hfin : (physicsStep (1 / 100) staticObj
        (ballAt 400 350 50 50 (-50) 1 1 : Ball ℝ)).squashFactor = ⟨257 / 200, 143 / 200⟩ := by
      rw [physicsStep_squashFactor, collide_squashFactor_of_hit _ _ hhit, relaxSquash_object]
      ext <;> norm_num
    refine ⟨_, frame_no_button _ _ _ _, hhit, ?_, hfin, ?_⟩
    · rw [physicsStep_velocity, collide_velocity, if_pos hhit, if_neg hX, if_neg hY]
      ext <;> norm_num [ballAt]
    · rw [hfin]
      intro h
      have hx := congrArg Vec2.x h
      norm_num at hx
  · have hhit : CheckCollision (integrate 0 (ballAt 100 350 200 50 (-50) 1 1 : Ball ℝ))
        staticObj = true := by
      rw [CheckCollision_iff]; norm_num [ballAt, staticObj]
    have hX : hitsWallX (integrate 0 (ballAt 100 350 200 50 (-50) 1 1 : Ball ℝ)) := by
      norm_num [hitsWallX, ballAt, SCREEN_WIDTH]
    have hY : ¬ hitsWallY (integrate 0 (ballAt 100 350 200 50 (-50) 1 1 : Ball ℝ)) := by
      norm_num [hitsWallY, ballAt, SCREEN_HEIGHT]
    have hv : (physicsStep 0 staticObj (ballAt 100 350 200 50 (-50) 1 1 : Ball ℝ)).velocity
        = ⟨50, 50⟩ := by
      rw [physicsStep_velocity, collide_velocity, if_pos hhit, if_pos hX, if_neg hY]
      ext <;> norm_num [ballAt]
    refine ⟨_, frame_no_button _ _ _ _, hhit, hX, ?_, hv, ?_⟩
    · rw [physicsStep_squashFactor, collide_squashFactor_of_hit _ _ hhit, relaxSquash_object]
      ext <;> norm_num
    · rw [hv]
      intro h
      have hx := congrArg Vec2.x h
      norm_num at hx

/-- With the radius of `main`, a ball that overlaps the object of `main` is
clear of all four walls. -/
theorem walls_clear_of_object (ball : Ball α) (hr : ball.radius = 50)
    (hhit : CheckCollision ball staticObj = true) : ¬ hitsWallX ball ∧ ¬ hitsWallY ball := by
  rw [CheckCollision_iff, hr] at hhit
  obtain ⟨h1, h2, h3, h4⟩ := hhit
  simp only [staticObj] at h1 h2 h3 h4
  constructor
  · rintro (h | h)
    · rw [hr] at h; linarith
    · rw [hr] at h; simp only [SCREEN_WIDTH] at h; norm_num at h; linarith
  · rintro (h | h)
    · rw [hr] at h; linarith
    · rw [hr] at h; simp only [SCREEN_HEIGHT] at h; norm_num at h; linarith

/-- C10 as stated fails: with the configuration of `main` (screen `800 x 600`,
radius `50`, object at `(300, 300)` of size `(200, 100)`) no ball position fires
a wall test and the object test together. -/
theorem no_double_fire_in_main :
    ¬ ∃ ball : Ball ℝ, ball.radius = 50 ∧ (hitsWallX ball ∨ hitsWallY ball) ∧
        CheckCollision ball staticObj = true := by
  rintro ⟨ball, hr, hw, hhit⟩
  obtain ⟨hX, hY⟩ := walls_clear_of_object ball hr hhit
  exact hw.elim hX hY

/-- C10, amended: with the configuration of `main` a ball (radius `50`) never
fires a wall test and the object test in the same frame.  For a ball of another
radius both can fire (radius `200` at `(100, 350)`: the X-wall test assigns
`(0.7, 1.3)`), and whenever the object test fires it runs after the wall tests,
so the squash factor before relaxation is the one of the object,
`(1.3, 0.7)`. -/
theorem double_fire_object_wins (ball : Ball α) (hr : ball.radius = 50) :
    ¬ ((hitsWallX ball ∨ hitsWallY ball) ∧ CheckCollision ball staticObj = true) ∧
      (∀ (b : Ball α) (obj : StaticObject α), CheckCollision b obj = true →
        (collide obj b).squashFactor = ⟨13 / 10, 7 / 10⟩) ∧
      (hitsWallX (ballAt 100 350 200 0 0 1 1 : Ball α) ∧
        CheckCollision (ballAt 100 350 200 0 0 1 1 : Ball α) staticObj = true ∧
        (wallCollisionY (wallCollisionX (ballAt 100 350 200 0 0 1 1 : Ball α))).squashFactor
          = ⟨7 / 10, 13 / 10⟩ ∧
        (collide staticObj (ballAt 100 350 200 0 0 1 1 : Ball α)).squashFactor
          = ⟨13 / 10, 7 / 10⟩) := by
  have hhit : CheckCollision (ballAt 100 350 200 0 0 1 1 : Ball α) staticObj = true := by
    rw [CheckCollision_iff]; norm_num [ballAt, staticObj]
  have hX : hitsWallX (ballAt 100 350 200 0 0 1 1 : Ball α) := by
    norm_num [hitsWallX, ballAt]
  have hY : ¬ hitsWallY (ballAt 100 350 200 0 0 1 1 : Ball α) := by
    norm_num [hitsWallY, ballAt, SCREEN_HEIGHT]
  refine ⟨?_, fun b obj h => collide_squashFactor_of_hit obj b h, hX, hhit, ?_,
    collide_squashFactor_of_hit _ _ hhit⟩
  · rintro ⟨hw, h⟩
    obtain ⟨h1, h2⟩ := walls_clear_of_object ball hr h
    exact hw.elim h1 h2
  · rw [wallCollisionY_squashFactor, if_neg (by rwa [hitsWallY_wallCollisionX]),
      wallCollisionX_squashFactor, if_pos hX]

/-- Instance of C10 (amended) at the ball as set up in `main`. -/
theorem double_fire_object_wins_witness :
    (initialBall : Ball ℚ).radius = 50 ∧
      ¬ ((hitsWallX (initialBall : Ball ℚ) ∨ hitsWallY (initialBall : Ball ℚ)) ∧
        CheckCollision (initialBall : Ball ℚ) staticObj = true) :=
  ⟨rfl, (double_fire_object_wins (initialBall : Ball ℚ) rfl).1⟩

end Update

/-! ## Squash relaxation in binary32 -/

section RelaxationF32

variable {α : Type} [LinearOrderedField α] [FloorRing α]

theorem f32_mono {x y : α} (h : x ≤ y) : f32 x ≤ f32 y :=
  roundBinary_mono 24 (by norm_num) (-126) h

theorem f32_of_isF32 {x : α} (h : IsF32 x) : f32 x = x := roundBinary_of_isBinary h

theorem isF32_f32 (x : α) : IsF32 (f32 x) := isBinary_roundBinary 24 (by norm_num) (-126) x

@[simp] theorem f32_zero : f32 (0 : α) = 0 := roundBinary_zero 24 (-126)

theorem f32_neg (x : α) : f32 (-x) = -f32 x := roundBinary_neg 24 (-126) x

@[simp] theorem f32_one : f32 (1 : α) = 1 := f32_of_isF32 isF32_one

/-- The increment `(1 - s) * 5.0f * deltaTime` as computed, for a non-negative
difference `a = 1 - s`: it lies between `0` and `a`. -/
theorem relaxIncrement_nonneg {a deltaTime : α} (ha : IsF32 a) (ha1 : a = 0 ∨ 1 / 2 ^ 24 ≤ a)
    (h0 : 0 ≤ deltaTime) (h1 : deltaTime ≤ maxBelowFifth) :
    0 ≤ f32 (f32 (a * 5) * deltaTime) ∧ f32 (f32 (a * 5) * deltaTime) ≤ a := by
  rcases ha1 with rfl | ha1
  · simp
  have hapos : 0 < a := lt_of_lt_of_le (by positivity) ha1
  have hb0 : 0 ≤ f32 (a * 5) := roundBinary_nonneg 24 (-126) (by positivity)
  have hlog : (-126 : ℤ) ≤ Int.log 2 |a * 5| := by
    rw [← Int.zpow_le_iff_le_log (by norm_num) (abs_pos.mpr (by positivity)), Nat.cast_ofNat,
      abs_of_pos (by positivity)]
    calc (2 : α) ^ (-126 : ℤ) ≤ 1 / 2 ^ 24 * 5 := by norm_num
      _ ≤ a * 5 := by linarith
  have herr := abs_roundBinary_sub_le_mul 24 (x := a * 5) (by positivity) hlog
  rw [abs_of_pos (show 0 < a * 5 by positivity)] at herr
  have hb1 : f32 (a * 5) ≤ a * 5 + a * 5 / 2 ^ 24 := by
    have := (abs_le.mp herr).2
    unfold f32
    linarith
  have hprod : f32 (a * 5) * deltaTime ≤ a := by
    calc f32 (a * 5) * deltaTime ≤ (a * 5 + a * 5 / 2 ^ 24) * maxBelowFifth :=
          mul_le_mul hb1 h1 h0 (by positivity)
      _ = a * (1 - 1 / 2 ^ 48) := by unfold maxBelowFifth; ring
      _ ≤ a := by nlinarith
  constructor
  · have := f32_mono (mul_nonneg hb0 h0)
    rwa [f32_zero] at this
  · have := f32_mono hprod
    rwa [f32_of_isF32 ha] at this

/-- The increment for a difference `a = 1 - s` of either sign lies between `0`
and `a`. -/
theorem relaxIncrement_between {a deltaTime : α} (ha : IsF32 a) (ha1 : a = 0 ∨ 1 / 2 ^ 24 ≤ |a|)
    (h0 : 0 ≤ deltaTime) (h1 : deltaTime ≤ maxBelowFifth) :
    (0 ≤ a → 0 ≤ f32 (f32 (a * 5) * deltaTime) ∧ f32 (f32 (a * 5) * deltaTime) ≤ a) ∧
      (a ≤ 0 → a ≤ f32 (f32 (a * 5) * deltaTime) ∧ f32 (f32 (a * 5) * deltaTime) ≤ 0) := by
  constructor
  · intro hpos
    apply relaxIncrement_nonneg ha _ h0 h1
    rcases ha1 with h | h
    · exact Or.inl h
    · exact Or.inr (by rwa [abs_of_nonneg hpos] at h)
  · intro hneg
    have h := relaxIncrement_nonneg (a := -a) (isF32_neg ha)
      (by
        rcases ha1 with h | h
        · exact Or.inl (by rw [h, neg_zero])
        · exact Or.inr (by rwa [abs_of_nonpos hneg] at h)) h0 h1
    rw [neg_mul, f32_neg, neg_mul, f32_neg] at h
    constructor <;> linarith [h.1, h.2]


/-- One relaxation step in binary32, on one component. -/
theorem relaxSquashF32_x (deltaTime : α) (s : Vec2 α) :
    (relaxSquashF32 deltaTime s).x = f32 (s.x + f32 (f32 (f32 (1 - s.x) * 5) * deltaTime)) := rfl

theorem relaxSquashF32_y (deltaTime : α) (s : Vec2 α) :
    (relaxSquashF32 deltaTime s).y = f32 (s.y + f32 (f32 (f32 (1 - s.y) * 5) * deltaTime)) := rfl

/-- One relaxation step in binary32 moves a `float` component of `[1/2, 2]`
towards `1` or leaves it, and never across `1`. -/
theorem relaxComponent_between {s deltaTime : α} (hs : IsF32 s) (h1 : 1 / 2 ≤ s) (h2 : s ≤ 2)
    (h0 : 0 ≤ deltaTime) (hd : deltaTime ≤ maxBelowFifth) :
    (1 ≤ s → 1 ≤ f32 (s + f32 (f32 (f32 (1 - s) * 5) * deltaTime)) ∧
        f32 (s + f32 (f32 (f32 (1 - s) * 5) * deltaTime)) ≤ s) ∧
      (s ≤ 1 → s ≤ f32 (s + f32 (f32 (f32 (1 - s) * 5) * deltaTime)) ∧
        f32 (s + f32 (f32 (f32 (1 - s) * 5) * deltaTime)) ≤ 1) := by
  obtain ⟨ha, ha1⟩ := one_sub_isF32 hs h1 h2
  obtain ⟨hpos, hneg⟩ := relaxIncrement_between ha ha1 h0 hd
  rw [f32_of_isF32 ha]
  constructor
  · intro h
    obtain ⟨hc1, hc2⟩ := hneg (by linarith)
    constructor
    · have := f32_mono (show (1 : α) ≤ s + f32 (f32 ((1 - s) * 5) * deltaTime) by linarith)
      rwa [f32_one] at this
    · have := f32_mono (show s + f32 (f32 ((1 - s) * 5) * deltaTime) ≤ s by linarith)
      rwa [f32_of_isF32 hs] at this
  · intro h
    obtain ⟨hc1, hc2⟩ := hpos (by linarith)
    constructor
    · have := f32_mono (show s ≤ s + f32 (f32 ((1 - s) * 5) * deltaTime) by linarith)
      rwa [f32_of_isF32 hs] at this
    · have := f32_mono (show s + f32 (f32 ((1 - s) * 5) * deltaTime) ≤ (1 : α) by linarith)
      rwa [f32_one] at this



theorem relaxSquashF32_eq (deltaTime : α) (s : Vec2 α) :
    relaxSquashF32 deltaTime s =
      ⟨relaxComponentF32 deltaTime s.x, relaxComponentF32 deltaTime s.y⟩ := rfl

theorem relaxSquashF32_iterate (deltaTime : α) (s : Vec2 α) (n : ℕ) :
    (relaxSquashF32 deltaTime)^[n] s =
      ⟨(relaxComponentF32 deltaTime)^[n] s.x, (relaxComponentF32 deltaTime)^[n] s.y⟩ := by
  induction n with
  | zero => rfl
  | succ n ih =>
    rw [Function.iterate_succ_apply', Function.iterate_succ_apply', Function.iterate_succ_apply',
      ih, relaxSquashF32_eq]

/-- The iterates of the binary32 relaxation of a `float` component of `[1/2, 2]`
are `float`s that stay on the side of the start and move towards `1` or stay. -/
theorem relaxComponent_iterate {s deltaTime : α} (hs : IsF32 s) (h1 : 1 / 2 ≤ s) (h2 : s ≤ 2)
    (h0 : 0 ≤ deltaTime) (hd : deltaTime ≤ maxBelowFifth) (n : ℕ) :
    IsF32 ((relaxComponentF32 deltaTime)^[n] s) ∧
      StaysToward s ((relaxComponentF32 deltaTime)^[n] s)
        ((relaxComponentF32 deltaTime)^[n + 1] s) := by
  induction n with
  | zero =>
    obtain ⟨ha, hb⟩ := relaxComponent_between hs h1 h2 h0 hd
    refine ⟨hs, ?_, ?_⟩
    · intro h
      exact ⟨(ha h).1, (ha h).2, le_rfl⟩
    · intro h
      exact ⟨le_rfl, (hb h).1, (hb h).2⟩
  | succ n ih =>
    obtain ⟨-, ihA, ihB⟩ := ih
    have hF : IsF32 ((relaxComponentF32 deltaTime)^[n + 1] s) := by
      rw [Function.iterate_succ_apply']
      exact isF32_f32 _
    have hlo : 1 / 2 ≤ (relaxComponentF32 deltaTime)^[n + 1] s := by
      rcases le_total 1 s with h | h
      · linarith [(ihA h).1]
      · linarith [(ihB h).1, (ihB h).2.1]
    have hhi : (relaxComponentF32 deltaTime)^[n + 1] s ≤ 2 := by
      rcases le_total 1 s with h | h
      · linarith [(ihA h).2.1, (ihA h).2.2]
      · linarith [(ihB h).2.2]
    obtain ⟨ha, hb⟩ := relaxComponent_between hF hlo hhi h0 hd
    refine ⟨hF, ?_, ?_⟩
    · intro h
      obtain ⟨i1, i2, i3⟩ := ihA h
      have := ha i1
      rw [Function.iterate_succ_apply' (n := n + 1)]
      exact ⟨this.1, this.2, le_trans i2 i3⟩
    · intro h
      obtain ⟨i1, i2, i3⟩ := ihB h
      have := hb i3
      rw [Function.iterate_succ_apply' (n := n + 1)]
      exact ⟨le_trans i1 i2, this.1, this.2⟩

/-- Evaluation of a rounding to `float` of a positive number. -/
theorem f32_eq_of_near_pos {x : α} (E n : ℤ) (h1 : (2 : α) ^ E ≤ x) (h2 : x < (2 : α) ^ (E + 1))
    (hE : -126 ≤ E) (hlo : (n : α) * (2 : α) ^ (E - 23) - (2 : α) ^ (E - 23) / 2 < x)
    (hhi : x < (n : α) * (2 : α) ^ (E - 23) + (2 : α) ^ (E - 23) / 2) :
    f32 x = (n : α) * (2 : α) ^ (E - 23) := by
  have hpos : 0 < x := lt_of_lt_of_le (zpow_pos two_pos E) h1
  have e : E - (((24 : ℕ) : ℤ) - 1) = E - 23 := by norm_num
  have : roundBinary 24 (-126) x = (n : α) * (2 : α) ^ (E - (((24 : ℕ) : ℤ) - 1)) :=
    roundBinary_eq_of_near E n (by rwa [abs_of_pos hpos]) (by rwa [abs_of_pos hpos]) hE
      (by rw [e, abs_lt]; constructor <;> linarith)
  rw [e] at this
  exact this

theorem relaxComponentF32_stall_above :
    relaxComponentF32 (1 / 64 : α) (1 + 1 / 2 ^ 23) = 1 + 1 / 2 ^ 23 := by
  have h1 : f32 (1 - (1 + 1 / 2 ^ 23) : α) = -(1 / 2 ^ 23) := by
    rw [show (1 - (1 + 1 / 2 ^ 23) : α) = -(1 / 2 ^ 23) by ring]
    exact f32_of_isF32 (isF32_of_eq (-1) (-23) (by norm_num) (by norm_num) (by norm_num))
  have h2 : f32 (-(1 / 2 ^ 23) * 5 : α) = -(5 / 2 ^ 23) := by
    rw [show (-(1 / 2 ^ 23) * 5 : α) = -(5 / 2 ^ 23) by ring]
    exact f32_of_isF32 (isF32_of_eq (-5) (-23) (by norm_num) (by norm_num) (by norm_num))
  have h3 : f32 (-(5 / 2 ^ 23) * (1 / 64) : α) = -(5 / 2 ^ 29) := by
    rw [show (-(5 / 2 ^ 23) * (1 / 64) : α) = -(5 / 2 ^ 29) by norm_num]
    exact f32_of_isF32 (isF32_of_eq (-5) (-29) (by norm_num) (by norm_num) (by norm_num))
  have h4 : f32 (1 + 1 / 2 ^ 23 + -(5 / 2 ^ 29) : α) = 1 + 1 / 2 ^ 23 := by
    rw [f32_eq_of_near_pos 0 8388609 (by norm_num) (by norm_num) (by norm_num) (by norm_num)
      (by norm_num)]
    norm_num
  rw [relaxComponentF32, h1, h2, h3, h4]

theorem relaxComponentF32_stall_below :
    relaxComponentF32 (1 / 64 : α) (1 - 1 / 2 ^ 24) = 1 - 1 / 2 ^ 24 := by
  have h1 : f32 (1 - (1 - 1 / 2 ^ 24) : α) = 1 / 2 ^ 24 := by
    rw [show (1 - (1 - 1 / 2 ^ 24) : α) = 1 / 2 ^ 24 by ring]
    exact f32_of_isF32 (isF32_of_eq 1 (-24) (by norm_num) (by norm_num) (by norm_num))
  have h2 : f32 (1 / 2 ^ 24 * 5 : α) = 5 / 2 ^ 24 := by
    rw [show (1 / 2 ^ 24 * 5 : α) = 5 / 2 ^ 24 by ring]
    exact f32_of_isF32 (isF32_of_eq 5 (-24) (by norm_num) (by norm_num) (by norm_num))
  have h3 : f32 (5 / 2 ^ 24 * (1 / 64) : α) = 5 / 2 ^ 30 := by
    rw [show (5 / 2 ^ 24 * (1 / 64) : α) = 5 / 2 ^ 30 by norm_num]
    exact f32_of_isF32 (isF32_of_eq 5 (-30) (by norm_num) (by norm_num) (by norm_num))
  have h4 : f32 (1 - 1 / 2 ^ 24 + 5 / 2 ^ 30 : α) = 1 - 1 / 2 ^ 24 := by
    rw [f32_eq_of_near_pos (-1) 16777215 (by norm_num) (by norm_num) (by norm_num) (by norm_num)
      (by norm_num)]
    norm_num
  rw [relaxComponentF32, h1, h2, h3, h4]

theorem relaxComponentF32_huge :
    relaxComponentF32 (maxBelowFifth : α) 53687096 = 0 := by
  have h1 : f32 (1 - 53687096 : α) = -53687096 := by
    rw [show (1 - 53687096 : α) = -53687095 by norm_num, f32_neg,
      f32_eq_of_near_pos 25 13421774 (by norm_num) (by norm_num) (by norm_num) (by norm_num)
        (by norm_num)]
    norm_num
  have h2 : f32 (-53687096 * 5 : α) = -268435488 := by
    rw [show (-53687096 * 5 : α) = -268435480 by norm_num, f32_neg,
      f32_eq_of_near_pos 28 8388609 (by norm_num) (by norm_num) (by norm_num) (by norm_num)
        (by norm_num)]
    norm_num
  have h3 : f32 (-268435488 * maxBelowFifth : α) = -53687096 := by
    rw [show (-268435488 * maxBelowFifth : α) = -(268435488 * (13421772 / 2 ^ 26)) by
      unfold maxBelowFifth; ring, f32_neg,
      f32_eq_of_near_pos 25 13421774 (by norm_num) (by norm_num) (by norm_num) (by norm_num)
        (by norm_num)]
    norm_num
  rw [relaxComponentF32, h1, h2, h3]
  norm_num

/-- Evaluation of a rounding to `float` of a positive number halfway between two
`float`s. -/
theorem f32_eq_of_tie_pos {x : α} (E k : ℤ) (h1 : (2 : α) ^ E ≤ x) (h2 : x < (2 : α) ^ (E + 1))
    (hE : -126 ≤ E) (hx : x = ((k : α) + 1 / 2) * (2 : α) ^ (E - 23)) :
    f32 x = ((if k % 2 = 0 then k else k + 1 : ℤ) : α) * (2 : α) ^ (E - 23) := by
  have hpos : 0 < x := lt_of_lt_of_le (zpow_pos two_pos E) h1
  have hb : binadeExponent (-126) x = E :=
    binadeExponent_eq (by rwa [abs_of_pos hpos]) (by rwa [abs_of_pos hpos]) hE
  have e : E - (((24 : ℕ) : ℤ) - 1) = E - 23 := by norm_num
  have hu : (2 : α) ^ (E - 23) ≠ 0 := (zpow_pos two_pos _).ne.symm
  unfold f32 roundBinary ulpAt
  rw [hb, e]
  congr 2
  rw [hx, mul_div_assoc, div_self hu, mul_one]
  exact roundNearestEven_tie k

theorem f32_intCast (n : ℤ) (h : |n| < 2 ^ 24) : f32 (n : α) = n :=
  f32_of_isF32 (isF32_of_eq n 0 h (by norm_num) (by simp))

theorem relaxComponentF32_one (deltaTime : α) : relaxComponentF32 deltaTime 1 = 1 := by
  simp [relaxComponentF32]

theorem relaxComponentF32_zero_step {s : α} (hs : IsF32 s) : relaxComponentF32 0 s = s := by
  simp [relaxComponentF32, f32_of_isF32 hs]

/-- The constant `1.3f`. -/
theorem f32_thirteen_tenths : f32 (13 / 10 : α) = 5452595 / 2 ^ 22 := by
  rw [f32_eq_of_near_pos 0 10905190 (by norm_num) (by norm_num) (by norm_num) (by norm_num)
    (by norm_num)]
  norm_num

/-- With the time step `1/2` the component `1.3f` goes to `0.55`. -/
theorem relaxComponentF32_half :
    relaxComponentF32 (1 / 2 : α) (5452595 / 2 ^ 22) = 4613735 / 2 ^ 23 := by
  have h1 : f32 (1 - 5452595 / 2 ^ 22 : α) = -(1258291 / 2 ^ 22) := by
    rw [show (1 - 5452595 / 2 ^ 22 : α) = -(1258291 / 2 ^ 22) by norm_num]
    exact f32_of_isF32 (isF32_of_eq (-1258291) (-22) (by norm_num) (by norm_num) (by norm_num))
  have h2 : f32 (-(1258291 / 2 ^ 22) * 5 : α) = -(6291455 / 2 ^ 22) := by
    rw [show (-(1258291 / 2 ^ 22) * 5 : α) = -(6291455 / 2 ^ 22) by norm_num]
    exact f32_of_isF32 (isF32_of_eq (-6291455) (-22) (by norm_num) (by norm_num) (by norm_num))
  have h3 : f32 (-(6291455 / 2 ^ 22) * (1 / 2) : α) = -(6291455 / 2 ^ 23) := by
    rw [show (-(6291455 / 2 ^ 22) * (1 / 2) : α) = -(6291455 / 2 ^ 23) by norm_num]
    exact f32_of_isF32 (isF32_of_eq (-6291455) (-23) (by norm_num) (by norm_num) (by norm_num))
  have h4 : f32 (5452595 / 2 ^ 22 + -(6291455 / 2 ^ 23) : α) = 4613735 / 2 ^ 23 := by
    rw [show (5452595 / 2 ^ 22 + -(6291455 / 2 ^ 23) : α) = 4613735 / 2 ^ 23 by norm_num]
    exact f32_of_isF32 (isF32_of_eq 4613735 (-23) (by norm_num) (by norm_num) (by norm_num))
  rw [relaxComponentF32, h1, h2, h3, h4]

/-- With the largest `float` time step below `2/5` the component
`9475897 / 2^24` (about `0.565`) goes to `3009817 / 2^21` (about `1.435`). -/
theorem relaxComponentF32_near_two_fifths :
    relaxComponentF32 (3355443 / 2 ^ 23 : α) (9475897 / 2 ^ 24) = 3009817 / 2 ^ 21 := by
  have h1 : f32 (1 - 9475897 / 2 ^ 24 : α) = 7301319 / 2 ^ 24 := by
    rw [show (1 - 9475897 / 2 ^ 24 : α) = 7301319 / 2 ^ 24 by norm_num]
    exact f32_of_isF32 (isF32_of_eq 7301319 (-24) (by norm_num) (by norm_num) (by norm_num))
  have h2 : f32 (7301319 / 2 ^ 24 * 5 : α) = 9126649 / 2 ^ 22 := by
    rw [f32_eq_of_near_pos 1 9126649 (by norm_num) (by norm_num) (by norm_num) (by norm_num)
      (by norm_num)]
    norm_num
  have h3 : f32 (9126649 / 2 ^ 22 * (3355443 / 2 ^ 23) : α) = 7301319 / 2 ^ 23 := by
    rw [f32_eq_of_near_pos (-1) 14602638 (by norm_num) (by norm_num) (by norm_num)
      (by norm_num) (by norm_num)]
    norm_num
  have h4 : f32 (9475897 / 2 ^ 24 + 7301319 / 2 ^ 23 : α) = 3009817 / 2 ^ 21 := by
    rw [f32_eq_of_tie_pos 0 12039267 (by norm_num) (by norm_num) (by norm_num) (by norm_num)]
    norm_num
  rw [relaxComponentF32, h1, h2, h3, h4]

end RelaxationF32

section CollisionF32

variable {α : Type} [LinearOrderedField α] [FloorRing α]

theorem CheckCollisionF32_iff (ball : Ball α) (obj : StaticObject α) :
    CheckCollisionF32 ball obj = true ↔
      (obj.position.x ≤ f32 (ball.position.x + ball.radius) ∧
        f32 (ball.position.x - ball.radius) ≤ f32 (obj.position.x + obj.size.x) ∧
        obj.position.y ≤ f32 (ball.position.y + ball.radius) ∧
        f32 (ball.position.y - ball.radius) ≤ f32 (obj.position.y + obj.size.y)) := by
  simp [CheckCollisionF32, roundVec2]

/-- C1: for every ball and every static object of the data model (radius `> 0`,
size `> 0`), `CheckCollision` returns true exactly when the closed intervals
`[p.x - r, p.x + r]`, `[q.x, q.x + s.x]` share a point and the closed intervals
`[p.y - r, p.y + r]`, `[q.y, q.y + s.y]` share a point; touching boxes count.
This holds in exact arithmetic and, for an object position of `float`s and the
interval bounds as the program computes them, in binary32.  The two examples
of the specification: centre `(0, 0)`, radius `10` against the object at
`(100, 100)` of size `(50, 50)` gives false; centre `(95, 125)`, radius `5`
(touching) gives true. -/
theorem checkCollision_iff_boxes_intersect (ball : Ball α) (obj : StaticObject α)
    (hr : 0 < ball.radius) (hsx : 0 < obj.size.x) (hsy : 0 < obj.size.y) :
    (CheckCollision ball obj = true ↔ BoxesIntersect ball obj) ∧
      (IsF32 obj.position.x → IsF32 obj.position.y →
        (CheckCollisionF32 ball obj = true ↔ BoxesIntersectF32 ball obj)) ∧
      CheckCollision (ballAt 0 0 10 0 0 1 1 : Ball α) (objAt 100 100 50 50) = false ∧
      CheckCollision (ballAt 95 125 5 0 0 1 1 : Ball α) (objAt 100 100 50 50) = true ∧
      CheckCollisionF32 (ballAt 0 0 10 0 0 1 1 : Ball α) (objAt 100 100 50 50) = false ∧
      CheckCollisionF32 (ballAt 95 125 5 0 0 1 1 : Ball α) (objAt 100 100 50 50) = true := by
  have hint : ∀ n : ℤ, |n| < 2 ^ 24 → f32 (n : α) = n := fun n h => f32_intCast n h
  have h10 : f32 (10 : α) = 10 := by simpa using hint 10 (by norm_num)
  have hm10 : f32 (-10 : α) = -10 := by simpa using hint (-10) (by norm_num)
  have h90 : f32 (90 : α) = 90 := by simpa using hint 90 (by norm_num)
  have h100 : f32 (100 : α) = 100 := by simpa using hint 100 (by norm_num)
  have h120 : f32 (120 : α) = 120 := by simpa using hint 120 (by norm_num)
  have h130 : f32 (130 : α) = 130 := by simpa using hint 130 (by norm_num)
  have h150 : f32 (150 : α) = 150 := by simpa using hint 150 (by norm_num)
  refine ⟨?_, ?_, ?_, ?_, ?_, ?_⟩
  · rw [CheckCollision_iff, BoxesIntersect,
      intervalsIntersect_iff (by linarith) (by linarith),
      intervalsIntersect_iff (by linarith) (by linarith)]
    tauto
  · intro hqx hqy
    have hx : obj.position.x ≤ f32 (obj.position.x + obj.size.x) := by
      have := f32_mono (show obj.position.x ≤ obj.position.x + obj.size.x by linarith)
      rwa [f32_of_isF32 hqx] at this
    have hy : obj.position.y ≤ f32 (obj.position.y + obj.size.y) := by
      have := f32_mono (show obj.position.y ≤ obj.position.y + obj.size.y by linarith)
      rwa [f32_of_isF32 hqy] at this
    rw [CheckCollisionF32_iff, BoxesIntersectF32,
      intervalsIntersect_iff (f32_mono (by linarith)) hx,
      intervalsIntersect_iff (f32_mono (by linarith)) hy]
    tauto
  · rw [← Bool.not_eq_true, CheckCollision_iff]
    norm_num [ballAt, objAt, initialBall, staticObj]
  · rw [CheckCollision_iff]
    norm_num [ballAt, objAt, initialBall, staticObj]
  · rw [← Bool.not_eq_true, CheckCollisionF32_iff]
    norm_num [ballAt, objAt, initialBall, staticObj, h10, hm10, h150]
  · rw [CheckCollisionF32_iff]
    norm_num [ballAt, objAt, initialBall, staticObj, h90, h100, h120, h130, h150]

end CollisionF32

/-- Instance of C1 at the touching example of the specification. -/
theorem checkCollision_iff_boxes_intersect_witness :
    (0 : ℚ) < (ballAt 95 125 5 0 0 1 1 : Ball ℚ).radius ∧
      (CheckCollision (ballAt 95 125 5 0 0 1 1 : Ball ℚ) (objAt 100 100 50 50) = true ↔
        BoxesIntersect (ballAt 95 125 5 0 0 1 1 : Ball ℚ) (objAt 100 100 50 50)) :=
  ⟨by norm_num [ballAt],
    (checkCollision_iff_boxes_intersect (ballAt 95 125 5 0 0 1 1 : Ball ℚ) (objAt 100 100 50 50)
      (by norm_num [ballAt]) (by norm_num [objAt]) (by norm_num [objAt])).1⟩

/-! ## The collision-free update in binary32 -/

section UpdateF32

variable {α : Type} [LinearOrderedField α] [FloorRing α]

/-- When no test of the frame fires, the update is the integration followed by
the relaxation. -/
theorem physicsStepF32_free (deltaTime : α) (obj : StaticObject α) (ball : Ball α)
    (hX : ¬ hitsWallXF32 (integrateF32 deltaTime ball))
    (hY : ¬ hitsWallYF32 (integrateF32 deltaTime ball))
    (hobj : CheckCollisionF32 (integrateF32 deltaTime ball) obj = false) :
    physicsStepF32 deltaTime obj ball =
      { integrateF32 deltaTime ball with
        squashFactor := relaxSquashF32 deltaTime ball.squashFactor } := by
  have h1 : wallCollisionXF32 (integrateF32 deltaTime ball) = integrateF32 deltaTime ball :=
    if_neg hX
  have h2 : wallCollisionYF32 (integrateF32 deltaTime ball) = integrateF32 deltaTime ball :=
    if_neg hY
  have h3 : objectCollisionF32 obj (integrateF32 deltaTime ball) = integrateF32 deltaTime ball :=
    if_neg (by rw [hobj]; exact Bool.false_ne_true)
  unfold physicsStepF32
  rw [h1, h2, h3]
  rfl

/-- A ball of radius `50` at `(100, 100)` fires no test of the update against the
object of `main`. -/
theorem free_at_hundred (ball : Ball α) (hpos : ball.position = ⟨100, 100⟩)
    (hrad : ball.radius = 50) :
    ¬ hitsWallXF32 ball ∧ ¬ hitsWallYF32 ball ∧ CheckCollisionF32 ball staticObj = false := by
  have h50 : f32 (50 : α) = 50 := by simpa using f32_intCast (α := α) 50 (by norm_num)
  have h150 : f32 (150 : α) = 150 := by simpa using f32_intCast (α := α) 150 (by norm_num)
  refine ⟨?_, ?_, ?_⟩
  · unfold hitsWallXF32
    rw [hpos, hrad]
    norm_num [h50, h150, SCREEN_WIDTH]
  · unfold hitsWallYF32
    rw [hpos, hrad]
    norm_num [h50, h150, SCREEN_HEIGHT]
  · rw [← Bool.not_eq_true]
    unfold CheckCollisionF32
    rw [hpos, hrad]
    simp only [roundVec2, Vec2.add_x, Vec2.splat_x, decide_eq_true_eq, not_and]
    intro h
    norm_num [h150, staticObj] at h

/-- A ball at rest at `(100, 100)` with radius `50` fires no test of the update
against the object of `main`, whatever the time step. -/
theorem rest_ball_free_binary32 (sx sy deltaTime : α) :
    ¬ hitsWallXF32 (integrateF32 deltaTime (ballAt 100 100 50 0 0 sx sy : Ball α)) ∧
      ¬ hitsWallYF32 (integrateF32 deltaTime (ballAt 100 100 50 0 0 sx sy : Ball α)) ∧
      CheckCollisionF32 (integrateF32 deltaTime (ballAt 100 100 50 0 0 sx sy : Ball α)) staticObj
        = false := by
  have h100 : f32 (100 : α) = 100 := by simpa using f32_intCast (α := α) 100 (by norm_num)
  have hpos : (integrateF32 deltaTime (ballAt 100 100 50 0 0 sx sy : Ball α)).position =
      ⟨100, 100⟩ := by
    simp [integrateF32, roundVec2, ballAt, h100]
  exact free_at_hundred _ hpos rfl

/-- With the time step `1/64` the ball at `(100, 100)` with velocity
`(2^-14, 0)` does not move: the displacement `2^-20` is rounded away. -/
theorem integrateF32_slow :
    (integrateF32 (1 / 64 : α) (ballAt 100 100 50 (1 / 2 ^ 14) 0 1 1)).position =
      ⟨100, 100⟩ := by
  have h100 : f32 (100 : α) = 100 := by simpa using f32_intCast (α := α) 100 (by norm_num)
  have h1 : f32 (1 / 2 ^ 14 * (1 / 64) : α) = 1 / 2 ^ 20 := by
    rw [show (1 / 2 ^ 14 * (1 / 64) : α) = 1 / 2 ^ 20 by norm_num]
    exact f32_of_isF32 (isF32_of_eq 1 (-20) (by norm_num) (by norm_num) (by norm_num))
  have h2 : f32 (100 + 1 / 2 ^ 20 : α) = 100 := by
    rw [f32_eq_of_near_pos 6 13107200 (by norm_num) (by norm_num) (by norm_num) (by norm_num)
      (by norm_num)]
    norm_num
  have h0 : f32 (0 * (1 / 64) : α) = 0 := by rw [zero_mul]; exact f32_zero
  have h3 : f32 (100 + 0 : α) = 100 := by rw [add_zero]; exact h100
  show (⟨f32 (100 + f32 (1 / 2 ^ 14 * (1 / 64))), f32 (100 + f32 (0 * (1 / 64)))⟩ : Vec2 α) =
    ⟨100, 100⟩
  rw [h1, h2, h0, h3]

/-- The ball of `integrateF32_slow` fires no test of the update. -/
theorem slow_ball_free_binary32 :
    ¬ hitsWallXF32 (integrateF32 (1 / 64 : α) (ballAt 100 100 50 (1 / 2 ^ 14) 0 1 1)) ∧
      ¬ hitsWallYF32 (integrateF32 (1 / 64 : α) (ballAt 100 100 50 (1 / 2 ^ 14) 0 1 1)) ∧
      CheckCollisionF32 (integrateF32 (1 / 64 : α) (ballAt 100 100 50 (1 / 2 ^ 14) 0 1 1))
        staticObj = false :=
  free_at_hundred _ integrateF32_slow rfl

theorem physicsStepF32_slow :
    (physicsStepF32 (1 / 64 : α) staticObj (ballAt 100 100 50 (1 / 2 ^ 14) 0 1 1)).position =
      ⟨100, 100⟩ := by
  obtain ⟨hX, hY, hobj⟩ := slow_ball_free_binary32 (α := α)
  rw [physicsStepF32_free _ _ _ hX hY hobj]
  exact integrateF32_slow

theorem physicsStepF32_rest (sx sy deltaTime : α) :
    (physicsStepF32 deltaTime staticObj (ballAt 100 100 50 0 0 sx sy : Ball α)).squashFactor =
      ⟨relaxComponentF32 deltaTime sx, relaxComponentF32 deltaTime sy⟩ := by
  obtain ⟨hX, hY, hobj⟩ := rest_ball_free_binary32 sx sy deltaTime
  rw [physicsStepF32_free _ _ _ hX hY hobj]
  rfl

end UpdateF32

section Rectangle

variable {α : Type} [LinearOrderedField α]

theorem triangleAt_rectangle_zero :
    triangleAt (GenerateRectangleVertices : List α) 0 = (⟨0, 1, 0⟩, ⟨1, 0, 0⟩, ⟨0, 0, 0⟩) := rfl

theorem triangleAt_rectangle_one :
    triangleAt (GenerateRectangleVertices : List α) 1 = (⟨0, 1, 0⟩, ⟨1, 1, 0⟩, ⟨1, 0, 0⟩) := rfl

/-- The first triangle is the lower left half of the unit square. -/
theorem inTriangle_rectangle_zero (x y : α) :
    InTriangle (triangleAt (GenerateRectangleVertices : List α) 0) x y ↔
      0 ≤ x ∧ 0 ≤ y ∧ x + y ≤ 1 := by
  rw [triangleAt_rectangle_zero]
  constructor
  · rintro ⟨u, v, w, hu, hv, hw, hs, hx, hy⟩
    simp only [mul_zero, mul_one, add_zero, zero_add] at hx hy
    subst hx; subst hy
    exact ⟨hv, hu, by linarith⟩
  · rintro ⟨hx, hy, hxy⟩
    refine ⟨y, x, 1 - x - y, hy, hx, by linarith, by ring, ?_, ?_⟩ <;> simp

/-- The second triangle is the upper right half of the unit square. -/
theorem inTriangle_rectangle_one (x y : α) :
    InTriangle (triangleAt (GenerateRectangleVertices : List α) 1) x y ↔
      x ≤ 1 ∧ y ≤ 1 ∧ 1 ≤ x + y := by
  rw [triangleAt_rectangle_one]
  constructor
  · rintro ⟨u, v, w, hu, hv, hw, hs, hx, hy⟩
    simp only [mul_zero, mul_one, add_zero, zero_add] at hx hy
    subst hx; subst hy
    exact ⟨by linarith, by linarith, by linarith⟩
  · rintro ⟨hx, hy, hxy⟩
    refine ⟨1 - x, x + y - 1, 1 - y, by linarith, by linarith, by linarith, by ring, ?_, ?_⟩ <;>
      simp

theorem interior_rectangle_zero (x y : α)
    (h : InTriangleInterior (triangleAt (GenerateRectangleVertices : List α) 0) x y) :
    x + y < 1 := by
  rw [triangleAt_rectangle_zero] at h
  obtain ⟨u, v, w, hu, hv, hw, hs, hx, hy⟩ := h
  simp only [mul_zero, mul_one, add_zero, zero_add] at hx hy
  subst hx; subst hy
  linarith

theorem interior_rectangle_one (x y : α)
    (h : InTriangleInterior (triangleAt (GenerateRectangleVertices : List α) 1) x y) :
    1 < x + y := by
  rw [triangleAt_rectangle_one] at h
  obtain ⟨u, v, w, hu, hv, hw, hs, hx, hy⟩ := h
  simp only [mul_zero, mul_one, add_zero, zero_add] at hx hy
  subst hx; subst hy
  linarith

/-- C8: `GenerateRectangleVertices` returns 18 numbers, that is 6 points, all
with `z = 0`; drawn as two triangles they cover the unit square exactly once: a
point lies in one of the two triangles exactly when it lies in
`[0, 1] x [0, 1]`, the two triangles share the edge from `(0, 1)` to `(1, 0)`,
a point lies in both exactly when it lies on that edge, and no point lies in the
interior of both. -/
theorem rectangle_covers_unit_square (x y : α) :
    (GenerateRectangleVertices : List α).length = 18 ∧
      (toPoints (GenerateRectangleVertices : List α)).length = 6 ∧
      (∀ p ∈ toPoints (GenerateRectangleVertices : List α), p.z = 0) ∧
      ((InTriangle (triangleAt (GenerateRectangleVertices : List α) 0) x y ∨
          InTriangle (triangleAt (GenerateRectangleVertices : List α) 1) x y) ↔
        InUnitSquare x y) ∧
      ((triangleAt (GenerateRectangleVertices : List α) 0).1 =
          (triangleAt (GenerateRectangleVertices : List α) 1).1 ∧
        (triangleAt (GenerateRectangleVertices : List α) 0).2.1 =
          (triangleAt (GenerateRectangleVertices : List α) 1).2.2) ∧
      ((InTriangle (triangleAt (GenerateRectangleVertices : List α) 0) x y ∧
          InTriangle (triangleAt (GenerateRectangleVertices : List α) 1) x y) ↔
        OnSegment (triangleAt (GenerateRectangleVertices : List α) 0).1
          (triangleAt (GenerateRectangleVertices : List α) 0).2.1 x y) ∧
      ¬ (InTriangleInterior (triangleAt (GenerateRectangleVertices : List α) 0) x y ∧
          InTriangleInterior (triangleAt (GenerateRectangleVertices : List α) 1) x y) := by
  refine ⟨rfl, rfl, ?_, ?_, ⟨rfl, rfl⟩, ?_, ?_⟩
  · intro p hp
    simp only [GenerateRectangleVertices, toPoints, List.mem_cons, List.mem_singleton,
      List.not_mem_nil, or_false] at hp
    rcases hp with h | h | h | h | h | h <;> rw [h]
  · rw [inTriangle_rectangle_zero, inTriangle_rectangle_one, InUnitSquare]
    constructor
    · rintro (⟨hx, hy, hxy⟩ | ⟨hx, hy, hxy⟩)
      · exact ⟨⟨hx, by linarith⟩, hy, by linarith⟩
      · exact ⟨⟨by linarith, hx⟩, by linarith, hy⟩
    · rintro ⟨⟨hx0, hx1⟩, hy0, hy1⟩
      rcases le_total (x + y) 1 with h | h
      · exact Or.inl ⟨hx0, hy0, h⟩
      · exact Or.inr ⟨hx1, hy1, h⟩
  · rw [inTriangle_rectangle_zero, inTriangle_rectangle_one, triangleAt_rectangle_zero]
    constructor
    · rintro ⟨⟨hx, hy, hxy⟩, hx1, hy1, hxy1⟩
      refine ⟨x, hx, hx1, ?_, ?_⟩
      · simp
      · simp only [mul_one, mul_zero, add_zero]; linarith
    · rintro ⟨t, ht0, ht1, hx, hy⟩
      simp only [mul_one, mul_zero, add_zero, zero_add] at hx hy
      subst hx; subst hy
      refine ⟨⟨ht0, by linarith, by linarith⟩, ht1, by linarith, by linarith⟩
  · rintro ⟨h0, h1⟩
    have := interior_rectangle_zero x y h0
    have := interior_rectangle_one x y h1
    linarith

end Rectangle

/-! ## Circle vertices -/

section Circle

variable {α : Type} [LinearOrderedField α] [FloorRing α]

/-- The loop started at counter `i` with `k` iterations to go and more than `k`
units of fuel appends the triples of `i, i + 1, ..., i + k - 1` and stops, as
long as the counter cannot wrap around. -/
theorem circleLoop_run (cos sin : α → α) (radius inc : α) (segments : ℕ)
    (hmax : segments + 1 < 2 ^ 32) :
    ∀ (k fuel i : ℕ) (acc : List α), i + k = segments + 1 → k < fuel →
      circleLoop cos sin radius inc segments fuel i acc =
        some (acc ++ (List.range' i k).flatMap (circleTriple cos sin radius inc)) := by
  intro k
  induction k with
  | zero =>
    intro fuel i acc hik hfuel
    obtain ⟨f, rfl⟩ : ∃ f, fuel = f + 1 := ⟨fuel - 1, by omega⟩
    have hi : ¬ i ≤ segments := by omega
    simp [circleLoop, hi]
  | succ k ih =>
    intro fuel i acc hik hfuel
    obtain ⟨f, rfl⟩ : ∃ f, fuel = f + 1 := ⟨fuel - 1, by omega⟩
    have hi : i ≤ segments := by omega
    have hwrap : (i + 1) % 2 ^ 32 = i + 1 := Nat.mod_eq_of_lt (by omega)
    rw [circleLoop, if_pos hi, hwrap, ih f (i + 1) _ (by omega) (by omega), List.range'_succ,
      List.flatMap_cons, List.append_assoc]
    rfl

/-- With `segments = 2^32 - 1` the loop test `i <= segments` holds for every
value of the 32-bit counter: the loop never ends, whatever the fuel. -/
theorem circleLoop_diverges (cos sin : α → α) (radius inc : α) :
    ∀ (fuel i : ℕ) (acc : List α), i < 2 ^ 32 →
      circleLoop cos sin radius inc (2 ^ 32 - 1) fuel i acc = none := by
  intro fuel
  induction fuel with
  | zero => intro i acc _; rfl
  | succ f ih =>
    intro i acc hi
    have hle : i ≤ 2 ^ 32 - 1 := by omega
    rw [circleLoop, if_pos hle]
    exact ih _ _ (Nat.mod_lt _ (by norm_num))

theorem toPoints_flatMap_circleTriple (cos sin : α → α) (radius inc : α) (l : List ℕ) :
    toPoints (l.flatMap (circleTriple cos sin radius inc)) =
      l.map fun i => ⟨f32 (f64 (radius * cos (f32 (f32 (i : α) * inc)))),
        f32 (f64 (radius * sin (f32 (f32 (i : α) * inc)))), 0⟩ := by
  induction l with
  | nil => rfl
  | cons a l ih =>
    rw [List.flatMap_cons, List.map_cons, ← ih]
    rfl

theorem length_flatMap_circleTriple (cos sin : α → α) (radius inc : α) (l : List ℕ) :
    (l.flatMap (circleTriple cos sin radius inc)).length = 3 * l.length := by
  induction l with
  | nil => rfl
  | cons a l ih =>
    rw [List.flatMap_cons, List.length_append, ih, List.length_cons]
    simp only [circleTriple, List.length_cons, List.length_nil]
    omega

/-- What `GenerateCircleVertices` returns when the counter cannot wrap around. -/
theorem generateCircleVertices_eq (cos sin : α → α) (radius : α) (segments fuel : ℕ)
    (hmax : segments + 1 < 2 ^ 32) (hfuel : segments + 2 ≤ fuel) :
    GenerateCircleVertices cos sin fuel radius segments =
      some ((List.range (segments + 1)).flatMap
        (circleTriple cos sin radius (f32 (f64 (f64 (2 * f64 M_PI) / (segments : α)))))) := by
  rw [GenerateCircleVertices, List.range_eq_range']
  simpa using circleLoop_run cos sin radius (f32 (f64 (f64 (2 * f64 M_PI) / (segments : α))))
    segments hmax (segments + 1) fuel 0 [] (by omega) (by omega)

theorem toPoints_circle (cos sin : α → α) (radius : α) (segments : ℕ) :
    toPoints ((List.range (segments + 1)).flatMap
        (circleTriple cos sin radius (f32 (f64 (f64 (2 * f64 M_PI) / (segments : α)))))) =
      (List.range (segments + 1)).map (circlePoint cos sin radius segments) :=
  toPoints_flatMap_circleTriple cos sin radius _ _

theorem f64_mono {x y : α} (h : x ≤ y) : f64 x ≤ f64 y :=
  roundBinary_mono 53 (by norm_num) (-1022) h

theorem f64_of_isBinary {x : α} (h : IsBinary 53 (-1022) x) : f64 x = x :=
  roundBinary_of_isBinary h

@[simp] theorem f64_zero : f64 (0 : α) = 0 := roundBinary_zero 53 (-1022)

theorem f64_neg (x : α) : f64 (-x) = -f64 x := roundBinary_neg 53 (-1022) x

/-- Evaluation of a rounding to `double` of a positive number. -/
theorem f64_eq_of_near_pos {x : α} (E n : ℤ) (h1 : (2 : α) ^ E ≤ x) (h2 : x < (2 : α) ^ (E + 1))
    (hE : -1022 ≤ E) (hlo : (n : α) * (2 : α) ^ (E - 52) - (2 : α) ^ (E - 52) / 2 < x)
    (hhi : x < (n : α) * (2 : α) ^ (E - 52) + (2 : α) ^ (E - 52) / 2) :
    f64 x = (n : α) * (2 : α) ^ (E - 52) := by
  have hpos : 0 < x := lt_of_lt_of_le (zpow_pos two_pos E) h1
  have e : E - (((53 : ℕ) : ℤ) - 1) = E - 52 := by norm_num
  have : roundBinary 53 (-1022) x = (n : α) * (2 : α) ^ (E - (((53 : ℕ) : ℤ) - 1)) :=
    roundBinary_eq_of_near E n (by rwa [abs_of_pos hpos]) (by rwa [abs_of_pos hpos]) hE
      (by rw [e, abs_lt]; constructor <;> linarith)
  rw [e] at this
  exact this

/-- Narrowing to `float` after rounding to `double`: the error is at most
`2^-23` times the magnitude plus `2^-149`. -/
theorem abs_f32_f64_sub_le (w : α) : |f32 (f64 w) - w| ≤ |w| / 2 ^ 23 + 1 / 2 ^ 149 := by
  have h1 := abs_roundBinary_sub_le_add 53 (-1022) w
  have h2 := abs_roundBinary_sub_le_add 24 (-126) (f64 w)
  have e1 : (2 : α) ^ ((-1022 : ℤ) - ((53 : ℕ) : ℤ)) = 1 / 2 ^ 1075 := by norm_num
  have e2 : (2 : α) ^ ((-126 : ℤ) - ((24 : ℕ) : ℤ)) = 1 / 2 ^ 150 := by norm_num
  rw [e1] at h1
  rw [e2] at h2
  have hz : |f64 w| ≤ |w| + (|w| / 2 ^ 53 + 1 / 2 ^ 1075) := by
    calc |f64 w| = |w + (f64 w - w)| := by rw [add_sub_cancel]
      _ ≤ |w| + |f64 w - w| := abs_add _ _
      _ ≤ |w| + (|w| / 2 ^ 53 + 1 / 2 ^ 1075) := by
        have h1' : |f64 w - w| ≤ |w| / 2 ^ 53 + 1 / 2 ^ 1075 := h1
        linarith
  have hw := abs_nonneg w
  have hsum : |f32 (f64 w) - w| ≤ |f32 (f64 w) - f64 w| + |f64 w - w| := by
    calc |f32 (f64 w) - w| = |(f32 (f64 w) - f64 w) + (f64 w - w)| := by rw [sub_add_sub_cancel]
      _ ≤ |f32 (f64 w) - f64 w| + |f64 w - w| := abs_add _ _
  have h3 : |f32 (f64 w) - f64 w| ≤ (|w| + (|w| / 2 ^ 53 + 1 / 2 ^ 1075)) / 2 ^ 24 + 1 / 2 ^ 150 := by
    have : |f64 w| / 2 ^ 24 ≤ (|w| + (|w| / 2 ^ 53 + 1 / 2 ^ 1075)) / 2 ^ 24 :=
      div_le_div_of_nonneg_right hz (by positivity)
    have h2' : |f32 (f64 w) - f64 w| ≤ |f64 w| / 2 ^ 24 + 1 / 2 ^ 150 := h2
    linarith
  have h4 : |f64 w - w| ≤ |w| / 2 ^ 53 + 1 / 2 ^ 1075 := h1
  have hfin : (|w| + (|w| / 2 ^ 53 + 1 / 2 ^ 1075)) / 2 ^ 24 + 1 / 2 ^ 150 +
      (|w| / 2 ^ 53 + 1 / 2 ^ 1075) ≤ |w| / 2 ^ 23 + 1 / 2 ^ 149 := by
    have e : (|w| + (|w| / 2 ^ 53 + 1 / 2 ^ 1075)) / 2 ^ 24 + 1 / 2 ^ 150 +
        (|w| / 2 ^ 53 + 1 / 2 ^ 1075) =
        |w| * (1 / 2 ^ 24 + 1 / 2 ^ 77 + 1 / 2 ^ 53) +
          (1 / 2 ^ 1099 + 1 / 2 ^ 150 + 1 / 2 ^ 1075) := by ring
    rw [e]
    have c1 : (1 : α) / 2 ^ 24 + 1 / 2 ^ 77 + 1 / 2 ^ 53 ≤ 1 / 2 ^ 23 := by norm_num
    have c2 : (1 : α) / 2 ^ 1099 + 1 / 2 ^ 150 + 1 / 2 ^ 1075 ≤ 1 / 2 ^ 149 := by norm_num
    have := mul_le_mul_of_nonneg_left c1 hw
    calc |w| * (1 / 2 ^ 24 + 1 / 2 ^ 77 + 1 / 2 ^ 53) +
          (1 / 2 ^ 1099 + 1 / 2 ^ 150 + 1 / 2 ^ 1075)
        ≤ |w| * (1 / 2 ^ 23) + 1 / 2 ^ 149 := add_le_add this c2
      _ = |w| / 2 ^ 23 + 1 / 2 ^ 149 := by ring
  linarith

/-- A `float` is a `double`. -/
theorem f64_of_isF32 {x : α} (h : IsF32 x) : f64 x = x := by
  obtain ⟨m, e, hm, he, rfl⟩ := h
  refine f64_of_isBinary ⟨m, e, lt_trans hm (by norm_num), ?_, rfl⟩
  norm_num at he ⊢
  omega

/-- The first point: at angle `0`, for library functions with `cos 0 = 1` and
`sin 0 = 0` and a `float` radius, it is `(radius, 0, 0)`. -/
theorem circlePoint_zero (cos sin : α → α) (hcos : cos 0 = 1) (hsin : sin 0 = 0) {radius : α}
    (hr : IsF32 radius) (segments : ℕ) :
    circlePoint cos sin radius segments 0 = ⟨radius, 0, 0⟩ := by
  have ha : circleAngle (α := α) segments 0 = 0 := by
    simp [circleAngle]
  simp [circlePoint, ha, hcos, hsin, f64_of_isF32 hr, f32_of_isF32 hr]

/-- The `double` nearest to the literal `M_PI`. -/
theorem f64_M_PI : f64 (M_PI : α) = 884279719003555 / 2 ^ 48 := by
  unfold M_PI
  rw [f64_eq_of_near_pos 1 7074237752028440 (by norm_num) (by norm_num) (by norm_num)
    (by norm_num) (by norm_num)]
  norm_num

/-- The angle increment of 36 segments. -/
theorem angleIncrement_36 :
    f32 (f64 (f64 (2 * f64 (M_PI : α)) / ((36 : ℕ) : α))) = 5856353 / 2 ^ 25 := by
  have h1 : f64 (2 * (884279719003555 / 2 ^ 48) : α) = 884279719003555 / 2 ^ 47 := by
    rw [show (2 * (884279719003555 / 2 ^ 48) : α) = 884279719003555 / 2 ^ 47 by norm_num]
    exact f64_of_isBinary ⟨884279719003555, -47, by norm_num, by norm_num, by norm_num⟩
  have h2 : f64 (884279719003555 / 2 ^ 47 / ((36 : ℕ) : α)) = 6288211335136391 / 2 ^ 55 := by
    rw [f64_eq_of_near_pos (-3) 6288211335136391 (by norm_num) (by norm_num) (by norm_num)
      (by norm_num) (by norm_num)]
    norm_num
  have h3 : f32 (6288211335136391 / 2 ^ 55 : α) = 5856353 / 2 ^ 25 := by
    rw [f32_eq_of_near_pos (-3) 11712706 (by norm_num) (by norm_num) (by norm_num)
      (by norm_num) (by norm_num)]
    norm_num
  rw [f64_M_PI, h1, h2, h3]

/-- The angle of the last point of the circle of 36 segments: a little less
than a full turn. -/
theorem circleAngle_36 : circleAngle (α := α) 36 36 = 6588397 / 2 ^ 20 := by
  have h1 : f32 (((36 : ℕ) : α)) = 36 := by
    simpa using f32_intCast (α := α) 36 (by norm_num)
  have h2 : f32 (36 * (5856353 / 2 ^ 25) : α) = 6588397 / 2 ^ 20 := by
    rw [f32_eq_of_near_pos 2 13176794 (by norm_num) (by norm_num) (by norm_num)
      (by norm_num) (by norm_num)]
    norm_num
  rw [circleAngle, angleIncrement_36, h1, h2]

end Circle

section CircleReal

/-- Sine and cosine at the angle `6588397 / 2^20` of the last point of the
circle of 36 segments, scaled by the radius `50`. -/
theorem sin_cos_last_angle :
    132817309 / 2 ^ 43 ≤ -(50 * Real.sin (6588397 / 2 ^ 20)) ∧
      -(50 * Real.sin (6588397 / 2 ^ 20)) ≤ 4150541 / 2 ^ 38 ∧
      50 - 1 / 2 ^ 30 ≤ 50 * Real.cos (6588397 / 2 ^ 20) ∧
      50 * Real.cos (6588397 / 2 ^ 20) ≤ 50 := by
  have hp1 : (314159265358979323846 / 10 ^ 20 : ℝ) < Real.pi := by
    have := Real.pi_gt_d20; norm_num at this ⊢; linarith
  have hp2 : Real.pi < (314159265358979323847 / 10 ^ 20 : ℝ) := by
    have := Real.pi_lt_d20; norm_num at this ⊢; linarith
  have ha : (6588397 / 2 ^ 20 : ℝ) = 2 * Real.pi - (2 * Real.pi - 6588397 / 2 ^ 20) := by ring
  have hlo : 2 * (314159265358979323846 / 10 ^ 20 : ℝ) - 6588397 / 2 ^ 20 <
      2 * Real.pi - 6588397 / 2 ^ 20 := by linarith
  have hhi : 2 * Real.pi - 6588397 / 2 ^ 20 <
      2 * (314159265358979323847 / 10 ^ 20 : ℝ) - 6588397 / 2 ^ 20 := by linarith
  have hpos : 0 < 2 * Real.pi - 6588397 / 2 ^ 20 := lt_trans (by norm_num) hlo
  have hle1 : 2 * Real.pi - 6588397 / 2 ^ 20 ≤ 1 := le_trans hhi.le (by norm_num)
  have hs1 := Real.sin_lt hpos
  have hs2 := Real.sin_gt_sub_cube hpos hle1
  have hc1 := Real.one_sub_sq_div_two_le_cos (x := 2 * Real.pi - 6588397 / 2 ^ 20)
  have hc2 := Real.cos_le_one (2 * Real.pi - 6588397 / 2 ^ 20)
  have hcube : (2 * Real.pi - 6588397 / 2 ^ 20) ^ 3 ≤
      (2 * (314159265358979323847 / 10 ^ 20 : ℝ) - 6588397 / 2 ^ 20) ^ 3 :=
    pow_le_pow_left₀ hpos.le hhi.le 3
  have hsq : (2 * Real.pi - 6588397 / 2 ^ 20) ^ 2 ≤
      (2 * (314159265358979323847 / 10 ^ 20 : ℝ) - 6588397 / 2 ^ 20) ^ 2 :=
    pow_le_pow_left₀ hpos.le hhi.le 2
  rw [ha, Real.sin_two_pi_sub, Real.cos_two_pi_sub]
  have n1 : (132817309 / 2 ^ 43 : ℝ) ≤
      50 * ((2 * (314159265358979323846 / 10 ^ 20 : ℝ) - 6588397 / 2 ^ 20) -
        (2 * (314159265358979323847 / 10 ^ 20 : ℝ) - 6588397 / 2 ^ 20) ^ 3 / 4) := by norm_num
  have n2 : 50 * (2 * (314159265358979323847 / 10 ^ 20 : ℝ) - 6588397 / 2 ^ 20) ≤
      4150541 / 2 ^ 38 := by norm_num
  have n3 : (50 : ℝ) - 1 / 2 ^ 30 ≤
      50 * (1 - (2 * (314159265358979323847 / 10 ^ 20 : ℝ) - 6588397 / 2 ^ 20) ^ 2 / 2) := by
    norm_num
  refine ⟨by linarith, by linarith, by linarith, by linarith⟩

/-- The last point that the call `GenerateCircleVertices(50, 36)` of `main`
produces, for exact library functions: `x` is `50`, `y` is the negative `float`
`-4150541 / 2^38`, about `-1.51e-5`. -/
theorem circlePoint_last_main :
    circlePoint Real.cos Real.sin 50 36 36 = ⟨50, -(4150541 / 2 ^ 38), 0⟩ := by
  obtain ⟨hs1, hs2, hc1, hc2⟩ := sin_cos_last_angle
  have h50 : f32 (50 : ℝ) = 50 := by simpa using f32_intCast (α := ℝ) 50 (by norm_num)
  have hd50 : f64 (50 : ℝ) = 50 :=
    f64_of_isBinary ⟨50, 0, by norm_num, by norm_num, by norm_num⟩
  have hdlo : f64 (50 - 1 / 2 ^ 30 : ℝ) = 50 - 1 / 2 ^ 30 :=
    f64_of_isBinary ⟨53687091199, -30, by norm_num, by norm_num, by norm_num⟩
  have hflo : f32 (50 - 1 / 2 ^ 30 : ℝ) = 50 := by
    rw [f32_eq_of_near_pos 5 13107200 (by norm_num) (by norm_num) (by norm_num) (by norm_num)
      (by norm_num)]
    norm_num
  have hx : f32 (f64 (50 * Real.cos (6588397 / 2 ^ 20))) = 50 := by
    apply le_antisymm
    · have := f32_mono (f64_mono hc2)
      rwa [hd50, h50] at this
    · have := f32_mono (f64_mono hc1)
      rwa [hdlo, hflo] at this
  have hdl : f64 (132817309 / 2 ^ 43 : ℝ) = 132817309 / 2 ^ 43 :=
    f64_of_isBinary ⟨132817309, -43, by norm_num, by norm_num, by norm_num⟩
  have hdh : f64 (4150541 / 2 ^ 38 : ℝ) = 4150541 / 2 ^ 38 :=
    f64_of_isBinary ⟨4150541, -38, by norm_num, by norm_num, by norm_num⟩
  have hfl : f32 (132817309 / 2 ^ 43 : ℝ) = 4150541 / 2 ^ 38 := by
    rw [f32_eq_of_near_pos (-17) 16602164 (by norm_num) (by norm_num) (by norm_num)
      (by norm_num) (by norm_num)]
    norm_num
  have hfh : f32 (4150541 / 2 ^ 38 : ℝ) = 4150541 / 2 ^ 38 :=
    f32_of_isF32 (isF32_of_eq 4150541 (-38) (by norm_num) (by norm_num) (by norm_num))
  have hy : f32 (f64 (50 * Real.sin (6588397 / 2 ^ 20))) = -(4150541 / 2 ^ 38) := by
    have e : 50 * Real.sin (6588397 / 2 ^ 20) = -(-(50 * Real.sin (6588397 / 2 ^ 20))) := by
      ring
    rw [e, f64_neg, f32_neg, neg_inj]
    apply le_antisymm
    · have := f32_mono (f64_mono hs2)
      rwa [hdh, hfh] at this
    · have := f32_mono (f64_mono hs1)
      rwa [hdl, hfl] at this
  rw [circlePoint, circleAngle_36, hx, hy]

theorem isF32_fifty : IsF32 (50 : ℝ) :=
  isF32_of_eq 50 0 (by norm_num) (by norm_num) (by norm_num)

/-- First and last point of the list of points. -/
theorem circle_first_last (radius : ℝ) (hr : IsF32 radius) (segments : ℕ) :
    ((List.range (segments + 1)).map (circlePoint Real.cos Real.sin radius segments)).head? =
        some ⟨radius, 0, 0⟩ ∧
      ((List.range (segments + 1)).map (circlePoint Real.cos Real.sin radius segments)).getLast? =
        some (circlePoint Real.cos Real.sin radius segments segments) := by
  constructor
  · rw [List.range_succ_eq_map]
    simp [circlePoint_zero Real.cos Real.sin Real.cos_zero Real.sin_zero hr]
  · rw [List.getLast?_map, List.getLast?_range]
    simp

/-- Every point is the rounding of a point of the circle: each coordinate is
within `radius / 2^23 + 2^-149` of the coordinate of the point at the computed
angle, which lies at distance `radius` from the origin. -/
theorem circlePoint_near_circle (radius : ℝ) (hr : 0 ≤ radius) (segments i : ℕ) :
    (circlePoint Real.cos Real.sin radius segments i).z = 0 ∧
      |(circlePoint Real.cos Real.sin radius segments i).x -
          radius * Real.cos (circleAngle segments i)| ≤ radius / 2 ^ 23 + 1 / 2 ^ 149 ∧
      |(circlePoint Real.cos Real.sin radius segments i).y -
          radius * Real.sin (circleAngle segments i)| ≤ radius / 2 ^ 23 + 1 / 2 ^ 149 ∧
      Real.sqrt ((radius * Real.cos (circleAngle segments i)) ^ 2 +
        (radius * Real.sin (circleAngle segments i)) ^ 2) = radius := by
  refine ⟨rfl, ?_, ?_, ?_⟩
  · have h := abs_f32_f64_sub_le (radius * Real.cos (circleAngle segments i))
    have hc : |radius * Real.cos (circleAngle segments i)| ≤ radius := by
      rw [abs_mul, abs_of_nonneg hr]
      exact mul_le_of_le_one_right hr (Real.abs_cos_le_one _)
    have : |radius * Real.cos (circleAngle segments i)| / 2 ^ 23 ≤ radius / 2 ^ 23 :=
      div_le_div_of_nonneg_right hc (by positivity)
    exact le_trans h (by linarith)
  · have h := abs_f32_f64_sub_le (radius * Real.sin (circleAngle segments i))
    have hc : |radius * Real.sin (circleAngle segments i)| ≤ radius := by
      rw [abs_mul, abs_of_nonneg hr]
      exact mul_le_of_le_one_right hr (Real.abs_sin_le_one _)
    have : |radius * Real.sin (circleAngle segments i)| / 2 ^ 23 ≤ radius / 2 ^ 23 :=
      div_le_div_of_nonneg_right hc (by positivity)
    exact le_trans h (by linarith)
  · have e : (radius * Real.cos (circleAngle segments i)) ^ 2 +
        (radius * Real.sin (circleAngle segments i)) ^ 2 = radius ^ 2 := by
      have := Real.cos_sq_add_sin_sq (circleAngle segments i)
      calc (radius * Real.cos (circleAngle segments i)) ^ 2 +
            (radius * Real.sin (circleAngle segments i)) ^ 2
          = radius ^ 2 * (Real.cos (circleAngle segments i) ^ 2 +
              Real.sin (circleAngle segments i) ^ 2) := by ring
        _ = radius ^ 2 := by rw [this, mul_one]
    rw [e, Real.sqrt_sq hr]

/-- C7, amended: for every `float` radius `r > 0` and every `segments` with
`1 ≤ segments ≤ 2^32 - 2`, `GenerateCircleVertices(r, segments)` returns (with
`segments + 2` units of fuel or more) a flat sequence of exactly
`3 * (segments + 1)` numbers, that is `segments + 1` points in the order
`i = 0..segments` with `z = 0` and `(x, y)` the `float` roundings of
`(r cos a_i, r sin a_i)`, where `a_i` is `i * (2 * M_PI / segments)` as the
program computes it in binary32 (`cos`, `sin` exact).  Every point is at
distance `r` from the origin within floating tolerance: each coordinate is
within `r / 2^23 + 2^-149` of the point `(r cos a_i, r sin a_i)`, which is at
distance `r`.  The first point is `(r, 0, 0)`; the last point, at the angle
`a_segments`, need not be identical to it: for the call of `main` (radius `50`,
36 segments) the last point is `(50, -4150541 / 2^38, 0)`, about
`(50, -1.51e-5, 0)`. -/
theorem circle_vertices (radius : ℝ) (segments : ℕ) (hF : IsF32 radius) (hr : 0 < radius)
    (_hs : 1 ≤ segments) (hmax : segments < 2 ^ 32 - 1) :
    ∃ vertices : List ℝ,
      (∀ fuel : ℕ, segments + 2 ≤ fuel →
        GenerateCircleVertices Real.cos Real.sin fuel radius segments = some vertices) ∧
      vertices.length = 3 * (segments + 1) ∧
      toPoints vertices =
        (List.range (segments + 1)).map (circlePoint Real.cos Real.sin radius segments) ∧
      (∀ i : ℕ, i ≤ segments →
        (circlePoint Real.cos Real.sin radius segments i).z = 0 ∧
        |(circlePoint Real.cos Real.sin radius segments i).x -
            radius * Real.cos (circleAngle segments i)| ≤ radius / 2 ^ 23 + 1 / 2 ^ 149 ∧
        |(circlePoint Real.cos Real.sin radius segments i).y -
            radius * Real.sin (circleAngle segments i)| ≤ radius / 2 ^ 23 + 1 / 2 ^ 149 ∧
        Real.sqrt ((radius * Real.cos (circleAngle segments i)) ^ 2 +
          (radius * Real.sin (circleAngle segments i)) ^ 2) = radius) ∧
      (toPoints vertices).head? = some ⟨radius, 0, 0⟩ ∧
      (toPoints vertices).getLast? =
        some (circlePoint Real.cos Real.sin radius segments segments) ∧
      circlePoint Real.cos Real.sin 50 36 36 = ⟨50, -(4150541 / 2 ^ 38), 0⟩ := by
  have hwrap : segments + 1 < 2 ^ 32 := by omega
  obtain ⟨hfirst, hlast⟩ := circle_first_last radius hF segments
  have hpts := toPoints_circle Real.cos Real.sin radius segments
  refine ⟨_, fun fuel hfuel => generateCircleVertices_eq Real.cos Real.sin radius segments fuel
    hwrap hfuel, ?_, hpts, ?_, ?_, ?_, circlePoint_last_main⟩
  · rw [length_flatMap_circleTriple, List.length_range]
  · intro i _
    exact circlePoint_near_circle radius hr.le segments i
  · rw [hpts]; exact hfirst
  · rw [hpts]; exact hlast

/-- Instance of C7 (amended) at the call of `main`: radius `50`, `36` segments. -/
theorem circle_vertices_witness :
    ∃ vertices : List ℝ,
      (∀ fuel : ℕ, 36 + 2 ≤ fuel →
        GenerateCircleVertices Real.cos Real.sin fuel 50 36 = some vertices) ∧
      vertices.length = 3 * (36 + 1) ∧
      (toPoints vertices).head? = some ⟨50, 0, 0⟩ ∧
      (toPoints vertices).getLast? = some (circlePoint Real.cos Real.sin 50 36 36) :=
  have ⟨vertices, h1, h2, _, _, h5, h6, _⟩ :=
    circle_vertices 50 36 isF32_fifty (by norm_num) (by norm_num) (by norm_num)
  ⟨vertices, h1, h2, h5, h6⟩

/-- C7 as stated fails in two ways.  (a) For the call of `main`, radius `50` and
`36` segments, the first point is `(50, 0, 0)` while the last point is
`(50, -4150541 / 2^38, 0)`: the angle `36 * angleIncrement` computed in
binary32 is `6588397 / 2^20`, about `3.02e-7` short of a full turn.  The two
points are not identical, and the last one is not at distance `50` from the
origin.  (b) For `segments = 2^32 - 1`, the largest `unsigned int`, the test
`i <= segments` never fails and the function returns nothing, whatever the
fuel. -/
theorem circle_not_closed_nor_total :
    (∃ (vertices : List ℝ) (first last : Vec3 ℝ),
        GenerateCircleVertices Real.cos Real.sin 38 50 36 = some vertices ∧
        (toPoints vertices).head? = some first ∧
        (toPoints vertices).getLast? = some last ∧
        first = ⟨50, 0, 0⟩ ∧ last = ⟨50, -(4150541 / 2 ^ 38), 0⟩ ∧
        first ≠ last ∧ last.x ^ 2 + last.y ^ 2 ≠ 50 ^ 2) ∧
      ¬ ∃ (fuel : ℕ) (vertices : List ℝ),
        GenerateCircleVertices Real.cos Real.sin fuel 50 (2 ^ 32 - 1) = some vertices := by
  constructor
  · obtain ⟨hfirst, hlast⟩ := circle_first_last 50 isF32_fifty 36
    have hpts := toPoints_circle Real.cos Real.sin 50 36
    refine ⟨_, ⟨50, 0, 0⟩, ⟨50, -(4150541 / 2 ^ 38), 0⟩,
      generateCircleVertices_eq Real.cos Real.sin 50 36 38 (by norm_num) (by norm_num),
      ?_, ?_, rfl, rfl, ?_, ?_⟩
    · rw [hpts]; exact hfirst
    · rw [hpts, hlast, circlePoint_last_main]
    · intro h
      have h2 := congrArg Vec3.y h
      norm_num at h2
    · norm_num
  · rintro ⟨fuel, vertices, h⟩
    rw [GenerateCircleVertices, circleLoop_diverges Real.cos Real.sin 50 _ fuel 0 []
      (by norm_num)] at h
    exact Option.noConfusion h

end CircleReal

/-! ## Input handling -/

section Input

/-- The difference vector handed to `glm::normalize` by the input handling. -/
theorem processInput_pressed (sqrt : ℝ → ℝ) (mouseX mouseY : ℝ) (ball : Ball ℝ) :
    processInput sqrt (some (mouseX, mouseY)) ball =
      (normalize sqrt ((⟨mouseX, (SCREEN_HEIGHT : ℝ) - mouseY⟩ : Vec2 ℝ) - ball.position)).map
        fun direction => { ball with velocity := direction * ball.speed } := by
  simp only [processInput]
  cases normalize sqrt ((⟨mouseX, (SCREEN_HEIGHT : ℝ) - mouseY⟩ : Vec2 ℝ) - ball.position) <;> rfl

theorem dot_self_pos {v : Vec2 ℝ} (h : v ≠ ⟨0, 0⟩) : 0 < Vec2.dot v v := by
  have hne : v.x ≠ 0 ∨ v.y ≠ 0 := by
    by_contra hc
    push_neg at hc
    exact h (Vec2.ext hc.1 hc.2)
  unfold Vec2.dot
  rcases hne with hx | hy
  · have := mul_self_pos.mpr hx
    nlinarith [mul_self_nonneg v.y]
  · have := mul_self_pos.mpr hy
    nlinarith [mul_self_nonneg v.x]

/-- Supporting fact for C9: while the button is held and the flipped pointer
position differs from the ball position, the input handling replaces the
velocity by the unit vector towards the pointer times `speed`, whatever the
velocity was; its length is `speed`. -/
theorem processInput_velocity (mouseX mouseY : ℝ) (ball : Ball ℝ)
    (h : (⟨mouseX, (SCREEN_HEIGHT : ℝ) - mouseY⟩ : Vec2 ℝ) ≠ ball.position)
    (hspeed : 0 ≤ ball.speed) :
    ∃ (b : Ball ℝ) (direction : Vec2 ℝ),
      processInput Real.sqrt (some (mouseX, mouseY)) ball = some b ∧
      direction = ((⟨mouseX, (SCREEN_HEIGHT : ℝ) - mouseY⟩ : Vec2 ℝ) - ball.position) *
        (1 / Real.sqrt (Vec2.dot
          ((⟨mouseX, (SCREEN_HEIGHT : ℝ) - mouseY⟩ : Vec2 ℝ) - ball.position)
          ((⟨mouseX, (SCREEN_HEIGHT : ℝ) - mouseY⟩ : Vec2 ℝ) - ball.position))) ∧
      Vec2.dot direction direction = 1 ∧
      b.velocity = direction * ball.speed ∧
      Real.sqrt (Vec2.dot b.velocity b.velocity) = ball.speed ∧
      b.position = ball.position := by
  set d : Vec2 ℝ := (⟨mouseX, (SCREEN_HEIGHT : ℝ) - mouseY⟩ : Vec2 ℝ) - ball.position with hd
  have hd0 : d ≠ ⟨0, 0⟩ := by
    intro hz
    apply h
    have hx := congrArg Vec2.x hz
    have hy := congrArg Vec2.y hz
    simp only [hd, Vec2.sub_x, Vec2.sub_y] at hx hy
    exact Vec2.ext (show mouseX = ball.position.x by linarith)
      (show (SCREEN_HEIGHT : ℝ) - mouseY = ball.position.y by linarith)
  have hpos := dot_self_pos hd0
  have hsq : 0 < Real.sqrt (Vec2.dot d d) := Real.sqrt_pos.mpr hpos
  have hmul : Real.sqrt (Vec2.dot d d) * Real.sqrt (Vec2.dot d d) = Vec2.dot d d :=
    Real.mul_self_sqrt hpos.le
  have hunit : Vec2.dot (d * (1 / Real.sqrt (Vec2.dot d d))) (d * (1 / Real.sqrt (Vec2.dot d d)))
      = 1 := by
    have e : Vec2.dot (d * (1 / Real.sqrt (Vec2.dot d d))) (d * (1 / Real.sqrt (Vec2.dot d d)))
        = Vec2.dot d d / (Real.sqrt (Vec2.dot d d) * Real.sqrt (Vec2.dot d d)) := by
      simp only [Vec2.dot, Vec2.smul_x, Vec2.smul_y]
      field_simp
    rw [e, hmul, div_self hpos.ne.symm]
  refine ⟨{ ball with velocity := (d * (1 / Real.sqrt (Vec2.dot d d))) * ball.speed }, _, ?_, rfl,
    hunit, rfl, ?_, rfl⟩
  · rw [processInput_pressed, normalize, inversesqrt, if_neg hsq.ne.symm]
    rfl
  · have e : Vec2.dot ((d * (1 / Real.sqrt (Vec2.dot d d))) * ball.speed)
        ((d * (1 / Real.sqrt (Vec2.dot d d))) * ball.speed) =
        Vec2.dot (d * (1 / Real.sqrt (Vec2.dot d d))) (d * (1 / Real.sqrt (Vec2.dot d d))) *
          ball.speed ^ 2 := by
      simp only [Vec2.dot, Vec2.smul_x, Vec2.smul_y]
      ring
    show Real.sqrt (Vec2.dot ((d * (1 / Real.sqrt (Vec2.dot d d))) * ball.speed)
        ((d * (1 / Real.sqrt (Vec2.dot d d))) * ball.speed)) = ball.speed
    rw [e, hunit, one_mul, Real.sqrt_sq hspeed]

/-- C9, evaluation at the failing input: the ball as set up in `main` sits at
`(400, 300)`; with the button held and the cursor at window position
`(400, 300)` (flipped: `(400, 300)`), the vector handed to `glm::normalize` is
zero, there is no guard, and neither the input handling nor the frame yields a
ball with a defined velocity; in particular the step is not a no-op. -/
theorem pointer_on_ball_unguarded :
    processInput Real.sqrt (some (400, 300)) (initialBall : Ball ℝ) = none ∧
      frame Real.sqrt (some (400, 300)) (1 / 60) staticObj (initialBall : Ball ℝ) = none ∧
      processInput Real.sqrt (some (400, 300)) (initialBall : Ball ℝ) ≠ some initialBall := by
  have h : processInput Real.sqrt (some (400, 300)) (initialBall : Ball ℝ) = none := by
    rw [processInput_pressed]
    have hz : Vec2.dot ((⟨400, (SCREEN_HEIGHT : ℝ) - 300⟩ : Vec2 ℝ) - initialBall.position)
        ((⟨400, (SCREEN_HEIGHT : ℝ) - 300⟩ : Vec2 ℝ) - initialBall.position) = 0 := by
      norm_num [Vec2.dot, initialBall, SCREEN_HEIGHT, SCREEN_WIDTH]
    rw [normalize, inversesqrt, hz, if_pos Real.sqrt_zero]
    rfl
  refine ⟨h, ?_, ?_⟩
  · rw [frame, h]; rfl
  · rw [h]; exact Option.noConfusion

end Input

end BasicCollision
